import Mathlib

/-!
Shallow embedding of the core of napari-membrane-intensity:
the axis validators of TrackCellsWorker (track_cells.py) and
MeasureMembraneIntensity (measure_intensity.py), the track
post-processing operations (isolate_full_tracks, make_pairs,
apply_pairing, relabel_with_tracks), and the membrane measurement
pipeline (labels_to_outlines, remove_outlier_intensities,
measure_intensities, get_integrated_intensity).
-/

namespace MembraneIntensity

/-! ## Axis validation (check_axes in both workers) -/

/-- The canonical tag order used by both validators: ordered = [T, Z, Y, X]. -/
def orderedAxes : List Char := ['T', 'Z', 'Y', 'X']

/-- Error cases raised by check_axes (each is a ValueError in the source). -/
inductive AxesError where
  | duplicates
  | unknownElements
  | cardinality
  | badOrder
deriving DecidableEq

/-- The final loop of TrackCellsWorker.check_axes: walk the candidate tags,
remembering the index into orderedAxes of the previous tag (initially -1),
and fail as soon as an index decreases. -/
def orderLoop : List Char → Int → Bool
  | [], _ => true
  | a :: rest, lastPos =>
    if ((orderedAxes.indexOf a : Nat) : Int) < lastPos then false
    else orderLoop rest ((orderedAxes.indexOf a : Nat) : Int)

/-- Mismatch test of check_axes against an optionally bound array:
(arr is not None) and (len(candidate) != arr.ndim). -/
def ndimMismatch : Option Nat → Nat → Bool
  | none, _ => false
  | some n, k => k ≠ n

/-- TrackCellsWorker.check_axes. The python code deduplicates the candidate
with set(); List.dedup plays that role here. The validator raises on
duplicate tags, on tags outside orderedAxes, on a cardinality mismatch with
the bound label maps, and on tags whose orderedAxes indices decrease. -/
def checkAxesTrack (axes : List Char) (labelMapsNdim : Option Nat) :
    Except AxesError Unit :=
  if axes.length ≠ axes.dedup.length then .error .duplicates
  else if axes.length ≠ (axes.dedup.filter (fun a => orderedAxes.contains a)).length then
    .error .unknownElements
  else if ndimMismatch labelMapsNdim axes.dedup.length then .error .cardinality
  else if orderLoop axes (-1) then .ok () else .error .badOrder

/-- MeasureMembraneIntensity.check_axes. Same duplicate and unknown-tag
checks, but the cardinality is compared against the bound intensity channel
only, and there is no order check at all. -/
def checkAxesMeasure (axes : List Char) (intensityNdim : Option Nat) :
    Except AxesError Unit :=
  if axes.length ≠ axes.dedup.length then .error .duplicates
  else if axes.length ≠ (axes.dedup.filter (fun a => orderedAxes.contains a)).length then
    .error .unknownElements
  else if ndimMismatch intensityNdim axes.dedup.length then .error .cardinality
  else .ok ()

/-- State of a TrackCellsWorker relevant to axis binding: the stored axes and
the rank of the bound label maps, if any. -/
structure TrackWorkerState where
  axes : List Char
  labelMapsNdim : Option Nat
deriving DecidableEq

/-- State of a MeasureMembraneIntensity worker relevant to axis binding:
the stored axes and the ranks of the two optionally bound arrays. -/
structure MeasureWorkerState where
  axes : List Char
  labelMapsNdim : Option Nat
  intensityNdim : Option Nat
deriving DecidableEq

/-- TrackCellsWorker.set_axes: run check_axes; on an exception the stored
axes are left unchanged, otherwise the candidate is stored. -/
def trackSetAxes (s : TrackWorkerState) (candidate : List Char) :
    TrackWorkerState × Option AxesError :=
  match checkAxesTrack candidate s.labelMapsNdim with
  | .error e => (s, some e)
  | .ok _ => ({ s with axes := candidate }, none)

/-- MeasureMembraneIntensity.set_axes. -/
def measureSetAxes (s : MeasureWorkerState) (candidate : List Char) :
    MeasureWorkerState × Option AxesError :=
  match checkAxesMeasure candidate s.intensityNdim with
  | .error e => (s, some e)
  | .ok _ => ({ s with axes := candidate }, none)

/-! ### Lemmas about the validators -/

lemma dedup_length_eq_iff_nodup (axes : List Char) :
    axes.length = axes.dedup.length ↔ axes.Nodup := by
  constructor
  · intro h
    have hsub : axes.dedup.Sublist axes := List.dedup_sublist axes
    have : axes.dedup = axes := List.Sublist.eq_of_length hsub h.symm
    rw [← this]
    exact List.nodup_dedup axes
  · intro h
    rw [List.dedup_eq_self.mpr h]

lemma orderLoop_eq_chain (axes : List Char) (lastPos : Int) :
    orderLoop axes lastPos = true ↔
      List.Chain (· ≤ ·) lastPos (axes.map (fun a => ((orderedAxes.indexOf a : Nat) : Int))) := by
  induction axes generalizing lastPos with
  | nil => simp [orderLoop]
  | cons a rest ih =>
    simp only [orderLoop, List.map_cons, List.chain_cons]
    by_cases hlt : ((orderedAxes.indexOf a : Nat) : Int) < lastPos
    · rw [if_pos hlt]
      simp only [Bool.false_eq_true, false_iff]
      rintro ⟨h1, _⟩
      omega
    · rw [if_neg hlt]
      rw [ih]
      constructor
      · intro h
        exact ⟨by omega, h⟩
      · rintro ⟨_, h⟩
        exact h

lemma chain_neg_one_iff_chain' (l : List Int) (hl : ∀ x ∈ l, 0 ≤ x) :
    List.Chain (· ≤ ·) (-1) l ↔ List.Chain' (· ≤ ·) l := by
  cases l with
  | nil => simp [List.Chain']
  | cons b t =>
    rw [List.chain_cons]
    constructor
    · rintro ⟨_, h⟩
      exact h
    · intro h
      refine ⟨?_, h⟩
      have : (0 : Int) ≤ b := hl b (by simp)
      omega

lemma orderLoop_neg_one_iff (axes : List Char) :
    orderLoop axes (-1) = true ↔
      axes.Chain' (fun a b => orderedAxes.indexOf a ≤ orderedAxes.indexOf b) := by
  rw [orderLoop_eq_chain]
  rw [chain_neg_one_iff_chain' _ (by intro x hx; simp at hx; obtain ⟨a, _, ha⟩ := hx; omega)]
  rw [List.chain'_map]
  constructor
  · intro h
    exact h.imp (fun a b hab => by exact_mod_cast hab)
  · intro h
    exact h.imp (fun a b hab => by exact_mod_cast hab)

/-- Acceptance characterization of the track-worker validator. -/
lemma checkAxesTrack_ok_iff (axes : List Char) (nd : Option Nat) :
    checkAxesTrack axes nd = .ok () ↔
      axes.Nodup ∧ (∀ a ∈ axes, a ∈ orderedAxes) ∧
      (∀ n, nd = some n → axes.length = n) ∧
      axes.Chain' (fun a b => orderedAxes.indexOf a ≤ orderedAxes.indexOf b) := by
  unfold checkAxesTrack
  by_cases hdup : axes.length = axes.dedup.length
  · have hnodup : axes.Nodup := (dedup_length_eq_iff_nodup axes).mp hdup
    have hded : axes.dedup = axes := List.dedup_eq_self.mpr hnodup
    rw [if_neg (by exact fun h => h hdup), hded]
    by_cases hunk : ∀ a ∈ axes, a ∈ orderedAxes
    · have hfil : axes.filter (fun a => orderedAxes.contains a) = axes := by
        apply List.filter_eq_self.mpr
        intro a ha
        simpa using hunk a ha
      rw [hfil, if_neg (by exact fun h => h rfl)]
      cases nd with
      | none =>
        rw [if_neg (by simp [ndimMismatch])]
        constructor
        · intro h
          by_cases hl : orderLoop axes (-1) = true
          · exact ⟨hnodup, hunk, by simp, (orderLoop_neg_one_iff axes).mp hl⟩
          · rw [if_neg (by simpa using hl)] at h
            cases h
        · rintro ⟨_, _, _, hch⟩
          rw [if_pos (by simpa using (orderLoop_neg_one_iff axes).mpr hch)]
      | some n =>
        by_cases hcard : axes.length = n
        · rw [if_neg (by simp [ndimMismatch, hcard])]
          constructor
          · intro h
            by_cases hl : orderLoop axes (-1) = true
            · refine ⟨hnodup, hunk, ?_, (orderLoop_neg_one_iff axes).mp hl⟩
              intro m hm
              cases hm
              exact hcard
            · rw [if_neg (by simpa using hl)] at h
              cases h
          · rintro ⟨_, _, _, hch⟩
            rw [if_pos (by simpa using (orderLoop_neg_one_iff axes).mpr hch)]
        · rw [if_pos (by simp [ndimMismatch, hcard])]
          constructor
          · intro h
            cases h
          · rintro ⟨_, _, hn, _⟩
            exact absurd (hn n rfl) hcard
    · have hfil : axes.length ≠ (axes.filter (fun a => orderedAxes.contains a)).length := by
        intro heq
        have hf : axes.filter (fun a => orderedAxes.contains a) = axes :=
          List.Sublist.eq_of_length (List.filter_sublist axes) heq.symm
        apply hunk
        intro a ha
        rw [← hf] at ha
        simpa using List.of_mem_filter ha
      rw [if_pos hfil]
      constructor
      · intro h
        cases h
      · rintro ⟨_, hunk2, _, _⟩
        exact absurd hunk2 hunk
  · rw [if_pos hdup]
    constructor
    · intro h
      cases h
    · rintro ⟨hnodup, _, _, _⟩
      exact absurd ((dedup_length_eq_iff_nodup axes).mpr hnodup) hdup

/-- Acceptance characterization of the measure-worker validator:
no order condition appears. -/
lemma checkAxesMeasure_ok_iff (axes : List Char) (nd : Option Nat) :
    checkAxesMeasure axes nd = .ok () ↔
      axes.Nodup ∧ (∀ a ∈ axes, a ∈ orderedAxes) ∧
      (∀ n, nd = some n → axes.length = n) := by
  unfold checkAxesMeasure
  by_cases hdup : axes.length = axes.dedup.length
  · have hnodup : axes.Nodup := (dedup_length_eq_iff_nodup axes).mp hdup
    have hded : axes.dedup = axes := List.dedup_eq_self.mpr hnodup
    rw [if_neg (by exact fun h => h hdup), hded]
    by_cases hunk : ∀ a ∈ axes, a ∈ orderedAxes
    · have hfil : axes.filter (fun a => orderedAxes.contains a) = axes := by
        apply List.filter_eq_self.mpr
        intro a ha
        simpa using hunk a ha
      rw [hfil, if_neg (by exact fun h => h rfl)]
      cases nd with
      | none =>
        rw [if_neg (by simp [ndimMismatch])]
        exact ⟨fun _ => ⟨hnodup, hunk, by simp⟩, fun _ => rfl⟩
      | some n =>
        by_cases hcard : axes.length = n
        · rw [if_neg (by simp [ndimMismatch, hcard])]
          refine ⟨fun _ => ⟨hnodup, hunk, ?_⟩, fun _ => rfl⟩
          intro m hm
          cases hm
          exact hcard
        · rw [if_pos (by simp [ndimMismatch, hcard])]
          constructor
          · intro h
            cases h
          · rintro ⟨_, _, hn⟩
            exact absurd (hn n rfl) hcard
    · have hfil : axes.length ≠ (axes.filter (fun a => orderedAxes.contains a)).length := by
        intro heq
        have hf : axes.filter (fun a => orderedAxes.contains a) = axes :=
          List.Sublist.eq_of_length (List.filter_sublist axes) heq.symm
        apply hunk
        intro a ha
        rw [← hf] at ha
        simpa using List.of_mem_filter ha
      rw [if_pos hfil]
      constructor
      · intro h
        cases h
      · rintro ⟨_, hunk2, _⟩
        exact absurd hunk2 hunk
  · rw [if_pos hdup]
    constructor
    · intro h
      cases h
    · rintro ⟨hnodup, _, _⟩
      exact absurd ((dedup_length_eq_iff_nodup axes).mpr hnodup) hdup

/-! ## Linked-track table model (track_cells.py) -/

/-- One row of the linked DataFrame: a detection plus the track identity
assigned by the linker (column particle). -/
structure Row where
  frame : Nat
  x : ℚ
  y : ℚ
  size : ℚ
  origLabel : Int
  diameter : ℚ
  particle : Int
deriving DecidableEq

/-- Track identities having a row at the given frame index:
set(linked[linked.frame == lastIdx].particle.unique()); modelled as the
list of particles (membership is all that is used). -/
def lastFrameParticles (linked : List Row) (lastIdx : Int) : List Int :=
  (linked.filter (fun r => (r.frame : Int) == lastIdx)).map (fun r => r.particle)

/-- TrackCellsWorker.isolate_full_tracks: when the axis spec starts with
the time tag, keep exactly the rows whose particle has a row at frame
index shape[0] - 1; otherwise do nothing. -/
def isolateFullTracks (linked : List Row) (framesLen : Nat) (axes : List Char) :
    List Row :=
  if axes.head? ≠ some 'T' then linked
  else linked.filter
    (fun r => (lastFrameParticles linked ((framesLen : Int) - 1)).contains r.particle)

/-! ## relabel_with_tracks (track_cells.py) -/

/-- Bit width of the dtype hard-coded in relabel_with_tracks (np.uint16). -/
def relabelDtypeBits : Nat := 16

/-- Model of a store into the uint16 output buffer: the buffer keeps the
value modulo 2 ^ 16. -/
def storeUint16 (v : Int) : Int := v % (2 ^ relabelDtypeBits)

/-- relabel_with_tracks, one frame. The output frame is allocated
zero-filled with the shape of lab (np.zeros_like(lab, dtype=np.uint16));
each row of the frame group whose orig_label is not 0 overwrites the pixels
whose label equals orig_label with the row track id, stored as uint16.
A frame is a flattened pixel list; shape is its length. -/
def relabelFrame (lab : List Int) (rowsAtT : List Row) : List Int :=
  rowsAtT.foldl
    (fun out r =>
      if r.origLabel = 0 then out
      else (out.zip lab).map (fun q => if q.2 = r.origLabel then storeUint16 r.particle else q.1))
    (lab.map (fun _ => 0))

/-! ## get_integrated_intensity (utils.py) -/

/-- get_integrated_intensity from utils.py with its side effects made
explicit. Before computing anything, the python function writes two tif
files into /tmp/exported whose names depend on a random number, then
returns the sum of the intensity values at positions with positive label.
The model returns (that sum, the list of file paths written). -/
def getIntegratedIntensity (intensity : List ℚ) (label : List Nat) (rdmNbr : Nat) :
    ℚ × List String :=
  ((((intensity.zip label).filter (fun q => 0 < q.2)).map (fun q => q.1)).sum,
   ["/tmp/exported/intensity-" ++ toString rdmNbr ++ ".tif",
    "/tmp/exported/label-" ++ toString rdmNbr ++ ".tif"])

/-! ### Lemmas about isolate_full_tracks -/

lemma contains_true_iff {α : Type} [BEq α] [LawfulBEq α] (l : List α) (a : α) :
    l.contains a = true ↔ a ∈ l := by
  simp [List.contains, List.elem_iff]

lemma mem_lastFrameParticles (linked : List Row) (lastIdx : Int) (p : Int) :
    p ∈ lastFrameParticles linked lastIdx ↔
      ∃ w ∈ linked, w.particle = p ∧ (w.frame : Int) = lastIdx := by
  unfold lastFrameParticles
  simp only [List.mem_map, List.mem_filter, beq_iff_eq]
  constructor
  · rintro ⟨w, ⟨hw, hf⟩, hp⟩
    exact ⟨w, hw, hp, hf⟩
  · rintro ⟨w, hw, hp, hf⟩
    exact ⟨w, ⟨hw, hf⟩, hp⟩

lemma isolateFullTracks_timeAxis (linked : List Row) (framesLen : Nat)
    (axes : List Char) (h : axes.head? = some 'T') :
    isolateFullTracks linked framesLen axes =
      linked.filter
        (fun r => (lastFrameParticles linked ((framesLen : Int) - 1)).contains r.particle) := by
  unfold isolateFullTracks
  rw [if_neg (by simp [h])]

lemma mem_isolateFullTracks (linked : List Row) (framesLen : Nat)
    (axes : List Char) (r : Row) (h : axes.head? = some 'T') :
    r ∈ isolateFullTracks linked framesLen axes ↔
      r ∈ linked ∧
        ∃ w ∈ linked, w.particle = r.particle ∧ (w.frame : Int) = (framesLen : Int) - 1 := by
  rw [isolateFullTracks_timeAxis linked framesLen axes h]
  rw [List.mem_filter]
  constructor
  · rintro ⟨hr, hc⟩
    refine ⟨hr, ?_⟩
    rw [← mem_lastFrameParticles]
    exact (contains_true_iff _ _).mp hc
  · rintro ⟨hr, hw⟩
    refine ⟨hr, ?_⟩
    rw [contains_true_iff, mem_lastFrameParticles]
    exact hw

lemma isolateFullTracks_idem (linked : List Row) (framesLen : Nat)
    (axes : List Char) :
    isolateFullTracks (isolateFullTracks linked framesLen axes) framesLen axes =
      isolateFullTracks linked framesLen axes := by
  by_cases h : axes.head? = some 'T'
  · set L : Int := (framesLen : Int) - 1 with hL
    rw [isolateFullTracks_timeAxis _ framesLen axes h]
    apply List.filter_eq_self.mpr
    intro r hr
    rw [contains_true_iff, mem_lastFrameParticles]
    rw [isolateFullTracks_timeAxis linked framesLen axes h] at hr
    rw [List.mem_filter] at hr
    obtain ⟨hrl, hc⟩ := hr
    have hp := (contains_true_iff _ _).mp hc
    rw [mem_lastFrameParticles] at hp
    obtain ⟨w, hwl, hwp, hwf⟩ := hp
    refine ⟨w, ?_, hwp, hwf⟩
    rw [isolateFullTracks_timeAxis linked framesLen axes h, List.mem_filter]
    refine ⟨hwl, ?_⟩
    rw [contains_true_iff, mem_lastFrameParticles]
    exact ⟨w, hwl, rfl, hwf⟩
  · unfold isolateFullTracks
    rw [if_pos (by simpa using h), if_pos (by simpa using h)]

/-! ## Claim theorems: axis validation and table pruning -/

/-- Claim C1, counterexample: the claim says every worker binding
array-shaped data rejects tags out of the canonical relative order, but
MeasureMembraneIntensity.check_axes accepts the out-of-order string XY. -/
theorem C1_counterexample :
    checkAxesMeasure ['X', 'Y'] none = Except.ok () ∧
    ¬ List.Chain' (fun a b => orderedAxes.indexOf a ≤ orderedAxes.indexOf b)
      ['X', 'Y'] := by
  constructor
  · rfl
  · rw [List.chain'_pair]
    decide

/-- Claim C1 (amended): TrackCellsWorker.check_axes accepts exactly the
candidates with no duplicate tag, tags drawn from {T,Z,Y,X}, cardinality
matching the bound label maps, and tags in the canonical relative order;
MeasureMembraneIntensity.check_axes accepts exactly the candidates with no
duplicate tag, tags drawn from {T,Z,Y,X}, and cardinality matching the
bound intensity channel, performing no order check. -/
theorem C1_check_axes_characterization :
    (∀ (axes : List Char) (nd : Option Nat),
      checkAxesTrack axes nd = .ok () ↔
        axes.Nodup ∧ (∀ a ∈ axes, a ∈ orderedAxes) ∧
        (∀ n, nd = some n → axes.length = n) ∧
        axes.Chain' (fun a b => orderedAxes.indexOf a ≤ orderedAxes.indexOf b)) ∧
    (∀ (axes : List Char) (nd : Option Nat),
      checkAxesMeasure axes nd = .ok () ↔
        axes.Nodup ∧ (∀ a ∈ axes, a ∈ orderedAxes) ∧
        (∀ n, nd = some n → axes.length = n)) :=
  ⟨checkAxesTrack_ok_iff, checkAxesMeasure_ok_iff⟩

/-- Witness for C1: the amended characterization applied to concrete
candidates on both validators. -/
theorem C1_witness :
    checkAxesTrack ['T', 'Y', 'X'] (some 3) = Except.ok () ∧
    checkAxesMeasure ['X', 'Y'] none = Except.ok () := by
  constructor
  · exact (C1_check_axes_characterization.1 ['T', 'Y', 'X'] (some 3)).mpr
      ⟨by decide, by decide, by intro n hn; cases hn; rfl,
       by rw [List.chain'_cons, List.chain'_pair]; exact ⟨by decide, by decide⟩⟩
  · exact (C1_check_axes_characterization.2 ['X', 'Y'] none).mpr
      ⟨by decide, by decide, by intro n hn; cases hn⟩

/-- Claim C3, counterexample: the claim says every worker with data bound
rejects rank-changing set_axes calls, but a MeasureMembraneIntensity worker
with label maps of rank 3 bound (and no intensity channel) accepts the
rank-2 candidate YX and stores it. -/
theorem C3_counterexample :
    (measureSetAxes ⟨['T', 'Y', 'X'], some 3, none⟩ ['Y', 'X']).2 = none ∧
    (measureSetAxes ⟨['T', 'Y', 'X'], some 3, none⟩ ['Y', 'X']).1.axes = ['Y', 'X'] ∧
    (['Y', 'X'] : List Char).length ≠ 3 := by
  refine ⟨rfl, rfl, by decide⟩

/-- Claim C3 (amended): once the label maps are bound, a TrackCellsWorker
rejects every set_axes call whose candidate cardinality differs from their
rank, leaving the stored state unchanged; the MeasureMembraneIntensity
worker gives the same guarantee against the bound intensity channel only
(with only label maps bound, rank-changing candidates are accepted, as the
counterexample shows). -/
theorem C3_rank_change_rejected :
    (∀ (s : TrackWorkerState) (cand : List Char) (n : Nat),
      s.labelMapsNdim = some n → cand.length ≠ n →
        (trackSetAxes s cand).2 ≠ none ∧ (trackSetAxes s cand).1 = s) ∧
    (∀ (s : MeasureWorkerState) (cand : List Char) (n : Nat),
      s.intensityNdim = some n → cand.length ≠ n →
        (measureSetAxes s cand).2 ≠ none ∧ (measureSetAxes s cand).1 = s) := by
  constructor
  · rintro s cand n hs hlen
    have hok : checkAxesTrack cand s.labelMapsNdim ≠ Except.ok () := by
      rw [hs]
      intro h
      exact hlen (((checkAxesTrack_ok_iff cand (some n)).mp h).2.2.1 n rfl)
    unfold trackSetAxes
    cases hc : checkAxesTrack cand s.labelMapsNdim with
    | error e => exact ⟨by simp, rfl⟩
    | ok u => cases u; exact absurd hc hok
  · rintro s cand n hs hlen
    have hok : checkAxesMeasure cand s.intensityNdim ≠ Except.ok () := by
      rw [hs]
      intro h
      exact hlen (((checkAxesMeasure_ok_iff cand (some n)).mp h).2.2 n rfl)
    unfold measureSetAxes
    cases hc : checkAxesMeasure cand s.intensityNdim with
    | error e => exact ⟨by simp, rfl⟩
    | ok u => cases u; exact absurd hc hok

/-- Witness for C3: both rejection guarantees applied at concrete states. -/
theorem C3_witness :
    (trackSetAxes ⟨['T', 'Y', 'X'], some 3⟩ ['Y', 'X']).2 ≠ none ∧
    (trackSetAxes ⟨['T', 'Y', 'X'], some 3⟩ ['Y', 'X']).1 = ⟨['T', 'Y', 'X'], some 3⟩ ∧
    (measureSetAxes ⟨['T', 'Y', 'X'], some 2, some 3⟩ ['Y', 'X']).2 ≠ none ∧
    (measureSetAxes ⟨['T', 'Y', 'X'], some 2, some 3⟩ ['Y', 'X']).1 =
      ⟨['T', 'Y', 'X'], some 2, some 3⟩ := by
  have h1 := C3_rank_change_rejected.1 ⟨['T', 'Y', 'X'], some 3⟩ ['Y', 'X'] 3
    rfl (by decide)
  have h2 := C3_rank_change_rejected.2 ⟨['T', 'Y', 'X'], some 2, some 3⟩ ['Y', 'X'] 3
    rfl (by decide)
  exact ⟨h1.1, h1.2, h2.1, h2.2⟩

/-- Claim C5 (confirmed): with a leading time axis, isolate_full_tracks
keeps a row iff its particle has some row at frame index frames - 1 (so it
removes a row iff its track identity has no row there); without a leading
time axis it is a no-op; and it is idempotent. -/
theorem C5_isolate_full_tracks :
    (∀ (linked : List Row) (framesLen : Nat) (axes : List Char) (r : Row),
      axes.head? = some 'T' →
      (r ∈ isolateFullTracks linked framesLen axes ↔
        r ∈ linked ∧
          ∃ w ∈ linked, w.particle = r.particle ∧ (w.frame : Int) = (framesLen : Int) - 1)) ∧
    (∀ (linked : List Row) (framesLen : Nat) (axes : List Char),
      axes.head? ≠ some 'T' → isolateFullTracks linked framesLen axes = linked) ∧
    (∀ (linked : List Row) (framesLen : Nat) (axes : List Char),
      isolateFullTracks (isolateFullTracks linked framesLen axes) framesLen axes =
        isolateFullTracks linked framesLen axes) := by
  refine ⟨mem_isolateFullTracks, ?_, isolateFullTracks_idem⟩
  intro linked framesLen axes h
  unfold isolateFullTracks
  rw [if_pos (by simpa using h)]

/-- Witness for C5: concrete pruning of a two-row table with frames = 2;
the row of the complete track stays, the other row is removed. -/
theorem C5_witness :
    (⟨1, 0, 0, 0, 1, 0, 1⟩ : Row) ∈
      isolateFullTracks [⟨0, 0, 0, 0, 2, 0, 4⟩, ⟨1, 0, 0, 0, 1, 0, 1⟩] 2 ['T', 'Y', 'X'] ∧
    ¬ ((⟨0, 0, 0, 0, 2, 0, 4⟩ : Row) ∈
      isolateFullTracks [⟨0, 0, 0, 0, 2, 0, 4⟩, ⟨1, 0, 0, 0, 1, 0, 1⟩] 2 ['T', 'Y', 'X']) ∧
    isolateFullTracks [⟨0, 0, 0, 0, 2, 0, 4⟩] 2 ['Z', 'Y', 'X'] = [⟨0, 0, 0, 0, 2, 0, 4⟩] := by
  refine ⟨?_, ?_, ?_⟩
  · exact (C5_isolate_full_tracks.1 [⟨0, 0, 0, 0, 2, 0, 4⟩, ⟨1, 0, 0, 0, 1, 0, 1⟩] 2
      ['T', 'Y', 'X'] ⟨1, 0, 0, 0, 1, 0, 1⟩ rfl).mpr
      ⟨by simp, ⟨1, 0, 0, 0, 1, 0, 1⟩, by simp, rfl, by decide⟩
  · intro hmem
    have := (C5_isolate_full_tracks.1 [⟨0, 0, 0, 0, 2, 0, 4⟩, ⟨1, 0, 0, 0, 1, 0, 1⟩] 2
      ['T', 'Y', 'X'] ⟨0, 0, 0, 0, 2, 0, 4⟩ rfl).mp hmem
    obtain ⟨_, w, hw, hwp, hwf⟩ := this
    simp only [List.mem_cons, List.mem_singleton] at hw
    rcases hw with hw | hw | hw
    · subst hw; exact absurd hwf (by decide)
    · subst hw; exact absurd hwp (by decide)
    · cases hw
  · exact C5_isolate_full_tracks.2.1 [⟨0, 0, 0, 0, 2, 0, 4⟩] 2 ['Z', 'Y', 'X'] (by decide)

/-- Claim C10 (confirmed): with a leading time axis, if no row of the
linked table sits at frame index shape[0] - 1 then isolate_full_tracks
empties the table. -/
theorem C10_empty_when_last_frame_empty :
    ∀ (linked : List Row) (framesLen : Nat) (axes : List Char),
      axes.head? = some 'T' →
      (∀ r ∈ linked, (r.frame : Int) ≠ (framesLen : Int) - 1) →
      isolateFullTracks linked framesLen axes = [] := by
  intro linked framesLen axes h hnone
  rw [isolateFullTracks_timeAxis linked framesLen axes h]
  apply List.filter_eq_nil_iff.mpr
  intro r hr
  intro hc
  have hp := (contains_true_iff _ _).mp hc
  rw [mem_lastFrameParticles] at hp
  obtain ⟨w, hwl, _, hwf⟩ := hp
  exact hnone w hwl hwf

/-- Witness for C10: a one-row table whose only row is at frame 0 while
frames = 2, so nothing reaches the last frame index 1. -/
theorem C10_witness :
    isolateFullTracks [⟨0, 0, 0, 0, 1, 0, 1⟩] 2 ['T', 'Y', 'X'] = [] :=
  C10_empty_when_last_frame_empty [⟨0, 0, 0, 0, 1, 0, 1⟩] 2 ['T', 'Y', 'X'] rfl
    (by intro r hr; simp only [List.mem_singleton] at hr; subst hr; decide)

/-! ### Lemmas about relabel_with_tracks -/

lemma relabelFrame_step_length (lab out : List Int) (r : Row)
    (hlen : out.length = lab.length) :
    ((out.zip lab).map
      (fun q => if q.2 = r.origLabel then storeUint16 r.particle else q.1)).length =
      lab.length := by
  simp [List.length_zip, hlen]

lemma zip_get_eq_some (out lab : List Int) (i : Nat) (a b : Int) :
    (out.zip lab).get? i = some (a, b) ↔ out.get? i = some a ∧ lab.get? i = some b :=
  List.get?_zip_eq_some out lab (a, b) i

lemma relabelFrame_fold_spec (lab : List Int) (rows : List Row) (init : List Int)
    (hlen : init.length = lab.length) :
    (rows.foldl
      (fun out r =>
        if r.origLabel = 0 then out
        else (out.zip lab).map
          (fun q => if q.2 = r.origLabel then storeUint16 r.particle else q.1))
      init).length = lab.length ∧
    ∀ i v,
      (rows.foldl
        (fun out r =>
          if r.origLabel = 0 then out
          else (out.zip lab).map
            (fun q => if q.2 = r.origLabel then storeUint16 r.particle else q.1))
        init).get? i = some v →
        init.get? i = some v ∨
          ∃ r ∈ rows, r.origLabel ≠ 0 ∧ lab.get? i = some r.origLabel ∧
            v = storeUint16 r.particle := by
  induction rows generalizing init with
  | nil => exact ⟨hlen, fun i v h => Or.inl h⟩
  | cons r rest ih =>
    simp only [List.foldl_cons]
    by_cases hz : r.origLabel = 0
    · rw [if_pos hz]
      obtain ⟨ihl, ihs⟩ := ih init hlen
      refine ⟨ihl, ?_⟩
      intro i v h
      rcases ihs i v h with h0 | ⟨w, hw, hwz, hwl, hwv⟩
      · exact Or.inl h0
      · exact Or.inr ⟨w, List.mem_cons_of_mem r hw, hwz, hwl, hwv⟩
    · rw [if_neg hz]
      have hlen2 : ((init.zip lab).map
          (fun q => if q.2 = r.origLabel then storeUint16 r.particle else q.1)).length =
            lab.length := relabelFrame_step_length lab init r hlen
      obtain ⟨ihl, ihs⟩ := ih _ hlen2
      refine ⟨ihl, ?_⟩
      intro i v h
      rcases ihs i v h with h0 | ⟨w, hw, hwz, hwl, hwv⟩
      · rw [List.get?_map] at h0
        cases hzip : (init.zip lab).get? i with
        | none => rw [hzip] at h0; cases h0
        | some q =>
          rw [hzip] at h0
          have h0 : (if q.2 = r.origLabel then storeUint16 r.particle else q.1) = v := by
            simpa using h0
          obtain ⟨ha, hb⟩ := (List.get?_zip_eq_some init lab q i).mp hzip
          by_cases hq : q.2 = r.origLabel
          · rw [if_pos hq] at h0
            exact Or.inr ⟨r, List.mem_cons_self r rest, hz, hq ▸ hb, h0.symm⟩
          · rw [if_neg hq] at h0
            exact Or.inl (h0 ▸ ha)
      · exact Or.inr ⟨w, List.mem_cons_of_mem r hw, hwz, hwl, hwv⟩

lemma storeUint16_eq_self (v : Int) (h0 : 0 ≤ v) (h1 : v < 2 ^ relabelDtypeBits) :
    storeUint16 v = v := by
  unfold storeUint16
  exact Int.emod_eq_of_lt h0 h1

/-! ## Claim theorems: relabel_with_tracks and get_integrated_intensity -/

/-- Claim C2, counterexample: the claim says the output element type is
wide enough for the maximum track identity; the code hard-codes np.uint16,
so a track identity of 65536 is stored as 0 — not represented exactly —
and 65536 does not fit in the 16 allocated bits. -/
theorem C2_counterexample :
    relabelFrame [1] [⟨0, 0, 0, 0, 1, 0, 65536⟩] = [0] ∧
    (65536 : Int) ≠ 0 ∧ ¬ ((65536 : Int) < 2 ^ relabelDtypeBits) := by
  refine ⟨by decide, by decide, by decide⟩

/-- Claim C2 (amended): relabel_with_tracks allocates each output frame
zero-filled with the shape of the original frame and the fixed unsigned
type uint16; every written pixel carries the track identity of a matching
linked row exactly, provided every track identity in the frame group fits
in 16 bits (0 ≤ id < 2 ^ 16); pixels matched by no row stay 0. -/
theorem C2_relabel_frame (lab : List Int) (rows : List Row)
    (hfit : ∀ r ∈ rows, 0 ≤ r.particle ∧ r.particle < 2 ^ relabelDtypeBits) :
    (relabelFrame lab rows).length = lab.length ∧
    (rows = [] → relabelFrame lab rows = lab.map (fun _ => 0)) ∧
    (∀ i v, (relabelFrame lab rows).get? i = some v →
      v = 0 ∨ ∃ r ∈ rows, r.origLabel ≠ 0 ∧ lab.get? i = some r.origLabel ∧
        v = r.particle) := by
  have hinit : (lab.map (fun _ => (0 : Int))).length = lab.length := by simp
  obtain ⟨hl, hs⟩ := relabelFrame_fold_spec lab rows (lab.map (fun _ => 0)) hinit
  refine ⟨hl, ?_, ?_⟩
  · intro h
    rw [h]
    rfl
  · intro i v h
    rcases hs i v h with h0 | ⟨r, hr, hrz, hrl, hrv⟩
    · rw [List.get?_map] at h0
      cases hg : lab.get? i with
      | none => rw [hg] at h0; cases h0
      | some w =>
        rw [hg] at h0
        have h0 : (0 : Int) = v := by simpa using h0
        exact Or.inl h0.symm
    · refine Or.inr ⟨r, hr, hrz, hrl, ?_⟩
      rw [hrv]
      exact storeUint16_eq_self r.particle (hfit r hr).1 (hfit r hr).2

/-- Witness for C2: a one-pixel frame with label 5 relabeled by a row
mapping original label 5 to track 7; the written pixel is exactly 7. -/
theorem C2_witness :
    (7 : Int) = 0 ∨
      ∃ r ∈ [(⟨0, 0, 0, 0, 5, 0, 7⟩ : Row)], r.origLabel ≠ 0 ∧
        ([(5 : Int)].get? 0 = some r.origLabel) ∧ (7 : Int) = r.particle :=
  (C2_relabel_frame [5] [⟨0, 0, 0, 0, 5, 0, 7⟩]
    (by intro r hr; simp only [List.mem_singleton] at hr; subst hr; exact ⟨by decide, by decide⟩)).2.2
    0 7 (by decide)

/-- Claim C9 (code bug): the spec says no core operation performs file
input or output, but every call of get_integrated_intensity writes two tif
files into /tmp/exported before returning the masked intensity sum. -/
theorem C9_every_call_writes_files :
    (getIntegratedIntensity [5] [1] 0).1 = 5 ∧
    (getIntegratedIntensity [5] [1] 0).2.length = 2 ∧
    (∀ (intensity : List ℚ) (label : List Nat) (rdm : Nat),
      (getIntegratedIntensity intensity label rdm).2 ≠ []) := by
  refine ⟨by norm_num [getIntegratedIntensity], rfl, ?_⟩
  intro intensity label rdm
  simp [getIntegratedIntensity]

/-! ## labels_to_outlines (measure_intensity.py)

A frame is a label image extended to the whole plane: scipy.ndimage
binary_erosion reads values outside the array as border_value = 0, so a
frame of shape h x w is modelled as a function on Int x Int that is 0
outside the image box; erosion of the all-false exterior stays false, so
the extension commutes with the per-array computation. -/

/-- One binary_erosion step with the default scipy structuring element
(the 3 x 3 cross, connectivity 1, origin included): a pixel survives iff
it and its four axis neighbors are set. -/
def erode1 (g : Int → Int → Bool) : Int → Int → Bool :=
  fun i j => g i j && g (i - 1) j && g (i + 1) j && g i (j - 1) && g i (j + 1)

/-- binary_erosion(mask, iterations = k). -/
def erodeN (k : Nat) (g : Int → Int → Bool) : Int → Int → Bool :=
  erode1^[k] g

/-- mask = (label_maps[t] == value). -/
def maskOf (lab : Int → Int → Nat) (v : Nat) : Int → Int → Bool :=
  fun i j => lab i j == v

/-- rings = (mask - eroded) * value for one label value. The uint8
subtraction mask - eroded equals mask and-not eroded because the eroded
mask is contained in the mask. -/
def ringOf (lab : Int → Int → Nat) (k : Nat) (v : Nat) : Int → Int → Nat :=
  fun i j => if maskOf lab v i j && !(erodeN k (maskOf lab v) i j) then v else 0

/-- inner = eroded * value for one label value. -/
def innerOf (lab : Int → Int → Nat) (k : Nat) (v : Nat) : Int → Int → Nat :=
  fun i j => if erodeN k (maskOf lab v) i j then v else 0

/-- The accumulation loop of labels_to_outlines for one frame: starting
from np.zeros_like, for each value in vals (np.unique of the frame),
skipping 0, bitwise-OR the per-value image into the buffer. -/
def orAccum (imgOf : Nat → Int → Int → Nat) (vals : List Nat) : Int → Int → Nat :=
  vals.foldl
    (fun buf v => if v = 0 then buf else fun i j => Nat.lor (buf i j) (imgOf v i j))
    (fun _ _ => 0)

/-- Per-frame ring buffer of labels_to_outlines. -/
def ringBuffer (lab : Int → Int → Nat) (k : Nat) (vals : List Nat) : Int → Int → Nat :=
  orAccum (ringOf lab k) vals

/-- Per-frame inner buffer of labels_to_outlines. -/
def innerBuffer (lab : Int → Int → Nat) (k : Nat) (vals : List Nat) : Int → Int → Nat :=
  orAccum (innerOf lab k) vals

/-! ### Lemmas about erosion and the buffers -/

lemma erode1_le (g : Int → Int → Bool) (i j : Int) (h : erode1 g i j = true) :
    g i j = true := by
  unfold erode1 at h
  simp only [Bool.and_eq_true] at h
  exact h.1.1.1.1

lemma erodeN_le (k : Nat) (g : Int → Int → Bool) (i j : Int)
    (h : erodeN k g i j = true) : g i j = true := by
  induction k generalizing g with
  | zero => exact h
  | succ m ih =>
    have hsucc : erodeN (m + 1) g = erodeN m (erode1 g) := by
      unfold erodeN
      rw [Function.iterate_succ_apply]
    rw [hsucc] at h
    exact erode1_le g i j (ih (erode1 g) h)

/-- Contribution of one accumulated image at one pixel: it is 0 unless the
pixel carries exactly that label value. -/
def labelLocal (lab : Int → Int → Nat) (imgOf : Nat → Int → Int → Nat) : Prop :=
  ∀ v i j, imgOf v i j = 0 ∨ (lab i j = v ∧ imgOf v i j = v)

lemma ringOf_labelLocal (lab : Int → Int → Nat) (k : Nat) :
    labelLocal lab (ringOf lab k) := by
  intro v i j
  unfold ringOf
  by_cases h : (maskOf lab v i j && !(erodeN k (maskOf lab v) i j)) = true
  · rw [if_pos h]
    simp only [Bool.and_eq_true] at h
    have : lab i j = v := by
      have := h.1
      unfold maskOf at this
      simpa using this
    exact Or.inr ⟨this, rfl⟩
  · rw [if_neg h]
    exact Or.inl rfl

lemma innerOf_labelLocal (lab : Int → Int → Nat) (k : Nat) :
    labelLocal lab (innerOf lab k) := by
  intro v i j
  unfold innerOf
  by_cases h : erodeN k (maskOf lab v) i j = true
  · rw [if_pos h]
    have hm := erodeN_le k (maskOf lab v) i j h
    unfold maskOf at hm
    exact Or.inr ⟨by simpa using hm, rfl⟩
  · rw [if_neg h]
    exact Or.inl rfl

lemma natLor_zero (n : Nat) : Nat.lor n 0 = n := Nat.or_zero n

lemma natZero_lor (n : Nat) : Nat.lor 0 n = n := Nat.zero_or n

lemma orAccum_fold_spec (lab : Int → Int → Nat) (imgOf : Nat → Int → Int → Nat)
    (hloc : labelLocal lab imgOf) (i j : Int) :
    ∀ (vals : List Nat) (init : Int → Int → Nat), vals.Nodup →
      (vals.foldl
        (fun buf v => if v = 0 then buf else fun a b => Nat.lor (buf a b) (imgOf v a b))
        init) i j =
      Nat.lor (init i j)
        (if lab i j ∈ vals ∧ lab i j ≠ 0 then imgOf (lab i j) i j else 0) := by
  intro vals
  induction vals with
  | nil =>
    intro init _
    simp only [List.foldl_nil, List.not_mem_nil, false_and, if_false]
    exact (natLor_zero _).symm
  | cons w rest ih =>
    intro init hnodup
    have hrest : rest.Nodup := (List.nodup_cons.mp hnodup).2
    have hwrest : w ∉ rest := (List.nodup_cons.mp hnodup).1
    simp only [List.foldl_cons]
    by_cases hw : w = 0
    · rw [if_pos hw]
      rw [ih init hrest]
      congr 1
      by_cases hl : lab i j ∈ rest ∧ lab i j ≠ 0
      · rw [if_pos hl, if_pos ⟨List.mem_cons_of_mem w hl.1, hl.2⟩]
      · rw [if_neg hl, if_neg ?_]
        rintro ⟨hmem, hnz⟩
        rcases List.mem_cons.mp hmem with h | h
        · exact hnz (h.trans hw)
        · exact hl ⟨h, hnz⟩
    · rw [if_neg hw]
      rw [ih _ hrest]
      by_cases hl : lab i j = w
      · have hnotrest : lab i j ∉ rest := hl ▸ hwrest
        rw [if_neg (by rintro ⟨hmem, _⟩; exact hnotrest hmem)]
        rw [if_pos ⟨by rw [hl]; exact List.mem_cons_self w rest, by rw [hl]; exact hw⟩]
        rw [natLor_zero, hl]
      · have himg0 : imgOf w i j = 0 := by
          rcases hloc w i j with h0 | ⟨hlw, _⟩
          · exact h0
          · exact absurd hlw hl
        rw [himg0, natLor_zero]
        congr 1
        by_cases hm : lab i j ∈ rest ∧ lab i j ≠ 0
        · rw [if_pos hm, if_pos ⟨List.mem_cons_of_mem w hm.1, hm.2⟩]
        · rw [if_neg hm, if_neg ?_]
          rintro ⟨hmem, hnz⟩
          rcases List.mem_cons.mp hmem with h | h
          · exact hl h
          · exact hm ⟨h, hnz⟩

lemma orAccum_spec (lab : Int → Int → Nat) (imgOf : Nat → Int → Int → Nat)
    (hloc : labelLocal lab imgOf) (vals : List Nat) (hnodup : vals.Nodup) (i j : Int) :
    orAccum imgOf vals i j =
      (if lab i j ∈ vals ∧ lab i j ≠ 0 then imgOf (lab i j) i j else 0) := by
  unfold orAccum
  rw [orAccum_fold_spec lab imgOf hloc i j vals _ hnodup]
  exact natZero_lor _

lemma ringBuffer_eq_v_iff (lab : Int → Int → Nat) (k v : Nat) (vals : List Nat)
    (hv : v ≠ 0) (hvals : v ∈ vals) (hnodup : vals.Nodup) (i j : Int) :
    ringBuffer lab k vals i j = v ↔
      lab i j = v ∧ erodeN k (maskOf lab v) i j = false := by
  unfold ringBuffer
  rw [orAccum_spec lab (ringOf lab k) (ringOf_labelLocal lab k) vals hnodup i j]
  constructor
  · intro h
    by_cases hm : lab i j ∈ vals ∧ lab i j ≠ 0
    · rw [if_pos hm] at h
      rcases ringOf_labelLocal lab k (lab i j) i j with h0 | ⟨_, _⟩
      · rw [h0] at h
        exact absurd h.symm hv
      · have hlv : lab i j = v := by
          unfold ringOf at h
          by_cases hc : (maskOf lab (lab i j) i j && !(erodeN k (maskOf lab (lab i j)) i j)) = true
          · rw [if_pos hc] at h
            exact h
          · rw [if_neg hc] at h
            exact absurd h.symm hv
        refine ⟨hlv, ?_⟩
        unfold ringOf at h
        rw [hlv] at h
        by_cases hc : (maskOf lab v i j && !(erodeN k (maskOf lab v) i j)) = true
        · simp only [Bool.and_eq_true, Bool.not_eq_true'] at hc
          exact hc.2
        · rw [if_neg hc] at h
          exact absurd h.symm hv
    · rw [if_neg hm] at h
      exact absurd h.symm hv
  · rintro ⟨hlv, her⟩
    rw [if_pos ⟨hlv ▸ hvals, hlv ▸ hv⟩, hlv]
    unfold ringOf
    rw [if_pos]
    simp only [Bool.and_eq_true, Bool.not_eq_true']
    refine ⟨?_, her⟩
    unfold maskOf
    simp [hlv]

lemma innerBuffer_eq_v_iff (lab : Int → Int → Nat) (k v : Nat) (vals : List Nat)
    (hv : v ≠ 0) (hvals : v ∈ vals) (hnodup : vals.Nodup) (i j : Int) :
    innerBuffer lab k vals i j = v ↔
      lab i j = v ∧ erodeN k (maskOf lab v) i j = true := by
  unfold innerBuffer
  rw [orAccum_spec lab (innerOf lab k) (innerOf_labelLocal lab k) vals hnodup i j]
  constructor
  · intro h
    by_cases hm : lab i j ∈ vals ∧ lab i j ≠ 0
    · rw [if_pos hm] at h
      have hlv : lab i j = v := by
        unfold innerOf at h
        by_cases hc : erodeN k (maskOf lab (lab i j)) i j = true
        · rw [if_pos hc] at h
          exact h
        · rw [if_neg hc] at h
          exact absurd h.symm hv
      refine ⟨hlv, ?_⟩
      unfold innerOf at h
      rw [hlv] at h
      by_cases hc : erodeN k (maskOf lab v) i j = true
      · exact hc
      · rw [if_neg hc] at h
        exact absurd h.symm hv
    · rw [if_neg hm] at h
      exact absurd h.symm hv
  · rintro ⟨hlv, her⟩
    rw [if_pos ⟨hlv ▸ hvals, hlv ▸ hv⟩, hlv]
    unfold innerOf
    rw [if_pos her]

/-- Claim C6 (confirmed): for a frame and a nonzero label whose eroded
mask is strictly contained in its mask, the ring footprint and the inner
footprint produced by labels_to_outlines are disjoint, their union is
exactly the label's original footprint, and ring pixel count plus inner
pixel count equals the original mask pixel count. vals stands for
np.unique of the frame (it lists every present value once); dom is the
pixel domain over which footprints are counted. -/
theorem C6_ring_inner_partition (lab : Int → Int → Nat) (k v : Nat)
    (vals : List Nat) (dom : Finset (Int × Int))
    (hv : v ≠ 0) (hvals : v ∈ vals) (hnodup : vals.Nodup)
    (hstrict : ∃ p : Int × Int,
      lab p.1 p.2 = v ∧ erodeN k (maskOf lab v) p.1 p.2 = false) :
    Disjoint
      (dom.filter (fun p => ringBuffer lab k vals p.1 p.2 = v))
      (dom.filter (fun p => innerBuffer lab k vals p.1 p.2 = v)) ∧
    (dom.filter (fun p => ringBuffer lab k vals p.1 p.2 = v)) ∪
      (dom.filter (fun p => innerBuffer lab k vals p.1 p.2 = v)) =
      dom.filter (fun p => lab p.1 p.2 = v) ∧
    (dom.filter (fun p => ringBuffer lab k vals p.1 p.2 = v)).card +
      (dom.filter (fun p => innerBuffer lab k vals p.1 p.2 = v)).card =
      (dom.filter (fun p => lab p.1 p.2 = v)).card := by
  have hdisj : Disjoint
      (dom.filter (fun p => ringBuffer lab k vals p.1 p.2 = v))
      (dom.filter (fun p => innerBuffer lab k vals p.1 p.2 = v)) := by
    rw [Finset.disjoint_left]
    intro p hp hq
    rw [Finset.mem_filter] at hp hq
    have h1 := (ringBuffer_eq_v_iff lab k v vals hv hvals hnodup p.1 p.2).mp hp.2
    have h2 := (innerBuffer_eq_v_iff lab k v vals hv hvals hnodup p.1 p.2).mp hq.2
    rw [h1.2] at h2
    exact Bool.false_ne_true h2.2
  have hunion : (dom.filter (fun p => ringBuffer lab k vals p.1 p.2 = v)) ∪
      (dom.filter (fun p => innerBuffer lab k vals p.1 p.2 = v)) =
      dom.filter (fun p => lab p.1 p.2 = v) := by
    ext p
    simp only [Finset.mem_union, Finset.mem_filter]
    rw [ringBuffer_eq_v_iff lab k v vals hv hvals hnodup p.1 p.2,
      innerBuffer_eq_v_iff lab k v vals hv hvals hnodup p.1 p.2]
    constructor
    · rintro (⟨hd, hl, _⟩ | ⟨hd, hl, _⟩) <;> exact ⟨hd, hl⟩
    · rintro ⟨hd, hl⟩
      cases her : erodeN k (maskOf lab v) p.1 p.2 with
      | false => exact Or.inl ⟨hd, hl, rfl⟩
      | true => exact Or.inr ⟨hd, hl, rfl⟩
  refine ⟨hdisj, hunion, ?_⟩
  rw [← Finset.card_union_of_disjoint hdisj, hunion]

/-- Demonstration frame for C6: a filled 5 x 5 square of label 1. -/
def demoLab : Int → Int → Nat :=
  fun i j => if 0 ≤ i ∧ i ≤ 4 ∧ 0 ≤ j ∧ j ≤ 4 then 1 else 0

/-- Witness for C6: the 5 x 5 square with one erosion iteration splits
into a ring and a 3 x 3 core whose pixel counts add up to the full mask. -/
theorem C6_witness :
    (((Finset.Icc (0 : Int) 4) ×ˢ (Finset.Icc (0 : Int) 4)).filter
        (fun p => ringBuffer demoLab 1 [0, 1] p.1 p.2 = 1)).card +
      (((Finset.Icc (0 : Int) 4) ×ˢ (Finset.Icc (0 : Int) 4)).filter
        (fun p => innerBuffer demoLab 1 [0, 1] p.1 p.2 = 1)).card =
      (((Finset.Icc (0 : Int) 4) ×ˢ (Finset.Icc (0 : Int) 4)).filter
        (fun p => demoLab p.1 p.2 = 1)).card :=
  (C6_ring_inner_partition demoLab 1 1 [0, 1]
    ((Finset.Icc (0 : Int) 4) ×ˢ (Finset.Icc (0 : Int) 4))
    (by decide) (by decide) (by decide)
    ⟨(0, 0), by decide, by decide⟩).2.2

/-! ## remove_outlier_intensities and the masking stage of run
(measure_intensity.py)

A frame is a flattened pixel list; each pixel carries its intensity value
and its label-map value. Intensities are exact rationals: the embedding of
the float test x < mean + factor * stddev is the equivalent exact
comparison (see keepPixel). numpy would give NaN statistics on a frame
with no labeled pixel (making every comparison false); theorems about
the keep mask therefore assume at least one labeled pixel. -/

/-- One pixel of one frame: its intensity-channel value and its label. -/
structure IPix where
  intensity : ℚ
  label : Nat
deriving DecidableEq

/-- values = intensities[labels > 0] for one frame. -/
def labeledValues (frame : List IPix) : List ℚ :=
  (frame.filter (fun p => 0 < p.label)).map (fun p => p.intensity)

/-- np.mean. -/
def listMean (l : List ℚ) : ℚ := l.sum / (l.length : ℚ)

/-- Square of np.std (population variance: mean squared deviation). -/
def listVar (l : List ℚ) : ℚ :=
  ((l.map (fun x => (x - listMean l) ^ 2)).sum) / (l.length : ℚ)

/-- Exact rational form of the per-pixel keep test
intensities < too_bright with too_bright = mean + factor * stddev:
for factor ≥ 0 and var ≥ 0, x < m + f * sqrt var iff
x < m or (x - m) ^ 2 < f ^ 2 * var (proved in keepPixel_iff_sqrt). -/
def keepPixel (x m v f : ℚ) : Bool :=
  decide (x < m) || decide ((x - m) ^ 2 < f ^ 2 * v)

/-- mask[t] = intensities < mean + factor * stddev for one frame, the
statistics taken over that same frame's labeled pixels. -/
def frameKeepMask (frame : List IPix) (factor : ℚ) : List Bool :=
  frame.map (fun p =>
    keepPixel p.intensity (listMean (labeledValues frame))
      (listVar (labeledValues frame)) factor)

/-- remove_outlier_intensities: the per-frame keep masks of the stack. -/
def removeOutlierMask (frames : List (List IPix)) (factor : ℚ) : List (List Bool) :=
  frames.map (fun f => frameKeepMask f factor)

/-- Stage 3 of run for one frame: buffer * discard_mask, the pixelwise
product of a label buffer with a boolean mask (used identically for the
ring buffer and the inner buffer). -/
def applyMaskFrame (buf : List Nat) (mask : List Bool) : List Nat :=
  List.zipWith (fun v k => if k then v else 0) buf mask

/-- Stage 3 of run over the whole stack. -/
def applyMaskStack (bufs : List (List Nat)) (masks : List (List Bool)) :
    List (List Nat) :=
  List.zipWith applyMaskFrame bufs masks

/-! ### Lemmas about the keep test -/

lemma listVar_nonneg (l : List ℚ) : 0 ≤ listVar l := by
  unfold listVar
  apply div_nonneg
  · apply List.sum_nonneg
    intro x hx
    rw [List.mem_map] at hx
    obtain ⟨y, _, hy⟩ := hx
    rw [← hy]
    positivity
  · positivity

lemma keepPixel_iff_sqrt (x m v f : ℚ) (hf : 0 ≤ f) (hv : 0 ≤ v) :
    keepPixel x m v f = true ↔
      (x : ℝ) < (m : ℝ) + (f : ℝ) * Real.sqrt (v : ℝ) := by
  have hvr : (0 : ℝ) ≤ (v : ℝ) := by exact_mod_cast hv
  have hfr : (0 : ℝ) ≤ (f : ℝ) := by exact_mod_cast hf
  have hs : (0 : ℝ) ≤ (f : ℝ) * Real.sqrt (v : ℝ) :=
    mul_nonneg hfr (Real.sqrt_nonneg _)
  unfold keepPixel
  simp only [Bool.or_eq_true, decide_eq_true_eq]
  constructor
  · rintro (h | h)
    · have hx : (x : ℝ) < (m : ℝ) := by exact_mod_cast h
      linarith
    · by_cases hxm : x < m
      · have hx : (x : ℝ) < (m : ℝ) := by exact_mod_cast hxm
        linarith
      · push_neg at hxm
        have hxm2 : (0 : ℝ) ≤ (x : ℝ) - (m : ℝ) := by
          have : (m : ℝ) ≤ (x : ℝ) := by exact_mod_cast hxm
          linarith
        have hsq : ((x : ℝ) - (m : ℝ)) ^ 2 < ((f : ℝ) * Real.sqrt (v : ℝ)) ^ 2 := by
          rw [mul_pow, Real.sq_sqrt hvr]
          exact_mod_cast h
        have := lt_of_pow_lt_pow_left 2 hs hsq
        linarith
  · intro h
    by_cases hxm : x < m
    · exact Or.inl hxm
    · push_neg at hxm
      right
      have hxm2 : (0 : ℝ) ≤ (x : ℝ) - (m : ℝ) := by
        have : (m : ℝ) ≤ (x : ℝ) := by exact_mod_cast hxm
        linarith
      have hlt : (x : ℝ) - (m : ℝ) < (f : ℝ) * Real.sqrt (v : ℝ) := by linarith
      have hsq := pow_lt_pow_left hlt hxm2 (two_ne_zero)
      rw [mul_pow, Real.sq_sqrt hvr] at hsq
      have : ((x - m : ℚ) : ℝ) ^ 2 < ((f : ℚ) : ℝ) ^ 2 * ((v : ℚ) : ℝ) := by
        push_cast
        linarith
      exact_mod_cast this

lemma get_zipWith_some {α β γ : Type} (f : α → β → γ) :
    ∀ (l1 : List α) (l2 : List β) (i : Nat) (a : α) (b : β),
      l1.get? i = some a → l2.get? i = some b →
      (List.zipWith f l1 l2).get? i = some (f a b) := by
  intro l1
  induction l1 with
  | nil =>
    intro l2 i a b h1 _
    cases h1
  | cons x xs ih =>
    intro l2 i a b h1 h2
    cases l2 with
    | nil => cases h2
    | cons y ys =>
      cases i with
      | zero =>
        cases h1
        cases h2
        rfl
      | succ n =>
        exact ih ys n a b h1 h2

/-- Claim C7 (confirmed): per frame, the keep mask marks a pixel for
exclusion (false) iff its intensity is at least mean + factor * stddev of
that frame's pixels under a nonzero label; the mask of frame t is a
function of frame t alone; and the masking stage of run zeroes exactly the
excluded pixels of the corresponding frame of any buffer (it is applied to
both the ring and the inner buffer stacks). -/
theorem C7_outlier_masking :
    (∀ (frames : List (List IPix)) (factor : ℚ) (t : Nat) (frame : List IPix),
      frames.get? t = some frame → (0 : ℚ) ≤ factor → labeledValues frame ≠ [] →
        (removeOutlierMask frames factor).get? t = some (frameKeepMask frame factor) ∧
        ∀ i p, frame.get? i = some p →
          ((frameKeepMask frame factor).get? i = some false ↔
            (listMean (labeledValues frame) : ℝ) +
              (factor : ℝ) * Real.sqrt ((listVar (labeledValues frame) : ℝ)) ≤
              (p.intensity : ℝ))) ∧
    (∀ (frames1 frames2 : List (List IPix)) (factor : ℚ) (s : Nat),
      frames1.get? s = frames2.get? s →
        (removeOutlierMask frames1 factor).get? s =
          (removeOutlierMask frames2 factor).get? s) ∧
    (∀ (bufs : List (List Nat)) (masks : List (List Bool)) (t : Nat)
        (bf : List Nat) (mf : List Bool),
      bufs.get? t = some bf → masks.get? t = some mf →
        (applyMaskStack bufs masks).get? t = some (applyMaskFrame bf mf)) ∧
    (∀ (bf : List Nat) (mf : List Bool) (i : Nat) (v : Nat) (k : Bool),
      bf.get? i = some v → mf.get? i = some k →
        (applyMaskFrame bf mf).get? i = some (if k then v else 0)) := by
  refine ⟨?_, ?_, ?_, ?_⟩
  · intro frames factor t frame ht hf _hne
    constructor
    · unfold removeOutlierMask
      rw [List.get?_map, ht]
      rfl
    · intro i p hp
      unfold frameKeepMask
      rw [List.get?_map, hp]
      have hbridge := keepPixel_iff_sqrt p.intensity (listMean (labeledValues frame))
        (listVar (labeledValues frame)) factor hf (listVar_nonneg _)
      constructor
      · intro h
        have hfalse : keepPixel p.intensity (listMean (labeledValues frame))
            (listVar (labeledValues frame)) factor = false := by
          simpa using h
        by_contra hcon
        push_neg at hcon
        have := hbridge.mpr hcon
        rw [hfalse] at this
        cases this
      · intro h
        have hfalse : keepPixel p.intensity (listMean (labeledValues frame))
            (listVar (labeledValues frame)) factor = false := by
          cases hk : keepPixel p.intensity (listMean (labeledValues frame))
              (listVar (labeledValues frame)) factor with
          | false => rfl
          | true =>
            have := hbridge.mp hk
            linarith
        simp [hfalse]
  · intro frames1 frames2 factor s hs
    unfold removeOutlierMask
    rw [List.get?_map, List.get?_map, hs]
  · intro bufs masks t bf mf hb hm
    exact get_zipWith_some applyMaskFrame bufs masks t bf mf hb hm
  · intro bf mf i v k hb hm
    exact get_zipWith_some (fun v k => if k then v else 0) bf mf i v k hb hm

/-- Witness for C7: a one-pixel frame whose only pixel is labeled with
intensity 5; the frame statistics are mean 5 and stddev 0, so the pixel
meets the exclusion threshold 5 and its keep flag is false. -/
theorem C7_witness :
    (frameKeepMask [⟨5, 1⟩] 1).get? 0 = some false := by
  have h := (C7_outlier_masking.1 [[⟨5, 1⟩]] 1 0 [⟨5, 1⟩] rfl (by norm_num)
    (by simp [labeledValues]) ).2 0 ⟨5, 1⟩ rfl
  apply h.mpr
  have hm : listMean (labeledValues [⟨5, 1⟩]) = 5 := by
    simp [labeledValues, listMean]
  have hv : listVar (labeledValues [⟨5, 1⟩]) = 0 := by
    simp [labeledValues, listVar, listMean]
  rw [hm, hv]
  simp

/-! ## measure_intensities (measure_intensity.py)

One frame is a flattened pixel list; each pixel carries its value in the
masked ring buffer, its value in the masked inner buffer, and its
intensity-channel value. skimage regionprops yields one region per
distinct nonzero value of the label image, with mean_intensity the mean
intensity over the region, area the pixel count, and
get_integrated_intensity the masked intensity sum over the region. -/

/-- One pixel of one frame for the measurement stage. -/
structure MPix where
  ring : Nat
  inner : Nat
  intensity : ℚ
deriving DecidableEq

/-- Distinct nonzero values of a label image: the regions regionprops
reports (label 0 is ignored). -/
def presentLabels (vals : List Nat) : List Nat :=
  (vals.filter (fun v => v ≠ 0)).dedup

/-- Pixels of the ring region of one label. -/
def ringPixels (f : List MPix) (l : Nat) : List MPix :=
  f.filter (fun p => p.ring = l)

/-- Pixels of the inner region of one label. -/
def innerPixels (f : List MPix) (l : Nat) : List MPix :=
  f.filter (fun p => p.inner = l)

/-- A measurement record: the ring triple alone, or the ring triple
followed by the inner triple (mean, integrated sum, area each time). -/
inductive MRecord where
  | ringOnly (meanR intR : ℚ) (areaR : Nat)
  | ringInner (meanR intR : ℚ) (areaR : Nat) (meanI intI : ℚ) (areaI : Nat)
deriving DecidableEq

/-- First loop of measure_intensities: one ring record per nonzero label
present in the ring image, keyed by label. -/
def ringRecords (f : List MPix) : List (Nat × MRecord) :=
  (presentLabels (f.map (fun p => p.ring))).map (fun l =>
    (l, MRecord.ringOnly
      (listMean ((ringPixels f l).map (fun p => p.intensity)))
      (((ringPixels f l).map (fun p => p.intensity)).sum)
      ((ringPixels f l).length)))

/-- Update applied by the second loop for inner label l: an entry keyed l
that holds a ring triple is extended with the inner triple; every other
entry is left alone (the loop does continue when the label is absent). -/
def innerUpd (f : List MPix) (l : Nat) (e : Nat × MRecord) : Nat × MRecord :=
  if e.1 = l then
    (e.1, match e.2 with
      | MRecord.ringOnly mr ir ar =>
          MRecord.ringInner mr ir ar
            (listMean ((innerPixels f l).map (fun p => p.intensity)))
            (((innerPixels f l).map (fun p => p.intensity)).sum)
            ((innerPixels f l).length)
      | r => r)
  else e

/-- Second loop of measure_intensities over the inner regions. -/
def addInner (f : List MPix) (recs : List (Nat × MRecord)) : List (Nat × MRecord) :=
  (presentLabels (f.map (fun p => p.inner))).foldl
    (fun acc l => acc.map (innerUpd f l)) recs

/-- measure_intensities for one frame: the per-label record table. -/
def measureFrame (f : List MPix) : List (Nat × MRecord) :=
  addInner f (ringRecords f)

/-! ### Lemmas about the record table -/

lemma mem_presentLabels (vals : List Nat) (l : Nat) :
    l ∈ presentLabels vals ↔ l ∈ vals ∧ l ≠ 0 := by
  unfold presentLabels
  rw [List.mem_dedup, List.mem_filter]
  simp

lemma innerUpd_key (f : List MPix) (l : Nat) (e : Nat × MRecord) :
    (innerUpd f l e).1 = e.1 := by
  unfold innerUpd
  by_cases h : e.1 = l
  · rw [if_pos h]
  · rw [if_neg h]

lemma find_beq_self (l : List Nat) (a : Nat) :
    l.find? (fun x => x == a) = if a ∈ l then some a else none := by
  induction l with
  | nil => simp
  | cons x xs ih =>
    by_cases hx : x = a
    · subst hx
      simp
    · have hbeq : (x == a) = false := by simpa using hx
      simp only [List.find?_cons, hbeq]
      rw [ih]
      by_cases hm : a ∈ xs
      · rw [if_pos hm, if_pos (List.mem_cons_of_mem x hm)]
      · rw [if_neg hm, if_neg (by
          intro hmem
          rcases List.mem_cons.mp hmem with h | h
          · exact hx h.symm
          · exact hm h)]

lemma find_map_innerUpd (f : List MPix) (l l0 : Nat) :
    ∀ recs : List (Nat × MRecord),
      (recs.map (innerUpd f l)).find? (fun e => e.1 == l0) =
        Option.map (innerUpd f l) (recs.find? (fun e => e.1 == l0)) := by
  intro recs
  induction recs with
  | nil => rfl
  | cons e es ih =>
    rw [List.map_cons, List.find?_cons, List.find?_cons]
    rw [innerUpd_key f l e]
    by_cases h : (e.1 == l0) = true
    · rw [h]
      rfl
    · rw [Bool.not_eq_true] at h
      rw [h]
      exact ih

lemma find_entry_key (recs : List (Nat × MRecord)) (l0 : Nat) (e : Nat × MRecord)
    (h : recs.find? (fun e => e.1 == l0) = some e) : e.1 = l0 := by
  have := List.find?_some h
  simpa using this

lemma addInner_fold_find (f : List MPix) (l0 : Nat) :
    ∀ (labels : List Nat) (recs : List (Nat × MRecord)), labels.Nodup →
      (labels.foldl (fun acc l => acc.map (innerUpd f l)) recs).find?
          (fun e => e.1 == l0) =
        if l0 ∈ labels then
          Option.map (innerUpd f l0) (recs.find? (fun e => e.1 == l0))
        else recs.find? (fun e => e.1 == l0) := by
  intro labels
  induction labels with
  | nil =>
    intro recs _
    simp
  | cons w ws ih =>
    intro recs hnodup
    have hrest : ws.Nodup := (List.nodup_cons.mp hnodup).2
    have hwrest : w ∉ ws := (List.nodup_cons.mp hnodup).1
    rw [List.foldl_cons, ih _ hrest]
    by_cases hw : w = l0
    · subst hw
      rw [if_neg hwrest, if_pos (List.mem_cons_self w ws)]
      exact find_map_innerUpd f w w recs
    · have hfix : (recs.map (innerUpd f w)).find? (fun e => e.1 == l0) =
          recs.find? (fun e => e.1 == l0) := by
        rw [find_map_innerUpd f w l0 recs]
        cases hfind : recs.find? (fun e => e.1 == l0) with
        | none => rfl
        | some e =>
          have hkey := find_entry_key recs l0 e hfind
          have hupd : innerUpd f w e = e := by
            unfold innerUpd
            rw [if_neg (by rw [hkey]; exact fun hc => hw hc.symm)]
          simp [hupd]
      by_cases hm : l0 ∈ ws
      · rw [if_pos hm, if_pos (List.mem_cons_of_mem w hm), hfix]
      · rw [if_neg hm, hfix, if_neg (by
          intro hmem
          rcases List.mem_cons.mp hmem with h | h
          · exact hw h.symm
          · exact hm h)]

lemma ringRecords_find (f : List MPix) (l0 : Nat) :
    (ringRecords f).find? (fun e => e.1 == l0) =
      if l0 ∈ presentLabels (f.map (fun p => p.ring)) then
        some (l0, MRecord.ringOnly
          (listMean ((ringPixels f l0).map (fun p => p.intensity)))
          (((ringPixels f l0).map (fun p => p.intensity)).sum)
          ((ringPixels f l0).length))
      else none := by
  unfold ringRecords
  rw [List.find?_map]
  have hcomp : ((fun e : Nat × MRecord => e.1 == l0) ∘ (fun l => ((l,
      MRecord.ringOnly
        (listMean ((ringPixels f l).map (fun p => p.intensity)))
        (((ringPixels f l).map (fun p => p.intensity)).sum)
        ((ringPixels f l).length)) : Nat × MRecord))) = fun l => l == l0 := by
    funext l
    rfl
  rw [hcomp, find_beq_self]
  by_cases hm : l0 ∈ presentLabels (f.map (fun p => p.ring))
  · rw [if_pos hm, if_pos hm]
    rfl
  · rw [if_neg hm, if_neg hm]
    rfl

/-- Claim C8 (confirmed): measure_intensities produces a record for a
label iff the label has a nonzero footprint in the masked ring buffer;
the record is the 6-tuple of ring and inner statistics iff the label also
has a nonzero footprint in the masked inner buffer of the same frame, and
is exactly the ring 3-tuple otherwise — never padded with defaults. -/
theorem C8_measurement_records (f : List MPix) (l : Nat) (hl : l ≠ 0) :
    (((measureFrame f).find? (fun e => e.1 == l)).isSome ↔ ∃ p ∈ f, p.ring = l) ∧
    ((∃ p ∈ f, p.ring = l) → (∃ p ∈ f, p.inner = l) →
      (measureFrame f).find? (fun e => e.1 == l) =
        some (l, MRecord.ringInner
          (listMean ((ringPixels f l).map (fun p => p.intensity)))
          (((ringPixels f l).map (fun p => p.intensity)).sum)
          ((ringPixels f l).length)
          (listMean ((innerPixels f l).map (fun p => p.intensity)))
          (((innerPixels f l).map (fun p => p.intensity)).sum)
          ((innerPixels f l).length))) ∧
    ((∃ p ∈ f, p.ring = l) → (¬ ∃ p ∈ f, p.inner = l) →
      (measureFrame f).find? (fun e => e.1 == l) =
        some (l, MRecord.ringOnly
          (listMean ((ringPixels f l).map (fun p => p.intensity)))
          (((ringPixels f l).map (fun p => p.intensity)).sum)
          ((ringPixels f l).length))) := by
  have hfind : (measureFrame f).find? (fun e => e.1 == l) =
      if l ∈ presentLabels (f.map (fun p => p.inner)) then
        Option.map (innerUpd f l) ((ringRecords f).find? (fun e => e.1 == l))
      else (ringRecords f).find? (fun e => e.1 == l) := by
    unfold measureFrame addInner
    exact addInner_fold_find f l (presentLabels (f.map (fun p => p.inner)))
      (ringRecords f) (List.nodup_dedup _)
  have hringmem : l ∈ presentLabels (f.map (fun p => p.ring)) ↔ ∃ p ∈ f, p.ring = l := by
    rw [mem_presentLabels]
    simp only [List.mem_map, ne_eq]
    constructor
    · rintro ⟨⟨p, hp, hpr⟩, _⟩
      exact ⟨p, hp, hpr⟩
    · rintro ⟨p, hp, hpr⟩
      exact ⟨⟨p, hp, hpr⟩, hl⟩
  have hinnermem : l ∈ presentLabels (f.map (fun p => p.inner)) ↔ ∃ p ∈ f, p.inner = l := by
    rw [mem_presentLabels]
    simp only [List.mem_map, ne_eq]
    constructor
    · rintro ⟨⟨p, hp, hpr⟩, _⟩
      exact ⟨p, hp, hpr⟩
    · rintro ⟨p, hp, hpr⟩
      exact ⟨⟨p, hp, hpr⟩, hl⟩
  refine ⟨?_, ?_, ?_⟩
  · rw [hfind]
    by_cases hin : l ∈ presentLabels (f.map (fun p => p.inner))
    · rw [if_pos hin, ringRecords_find]
      by_cases hr : l ∈ presentLabels (f.map (fun p => p.ring))
      · rw [if_pos hr]
        simpa using hringmem.mp hr
      · rw [if_neg hr]
        rw [show Option.map (innerUpd f l) (none : Option (Nat × MRecord)) = none from rfl]
        constructor
        · intro hs
          simp at hs
        · intro hex
          exact absurd (hringmem.mpr hex) hr
    · rw [if_neg hin, ringRecords_find]
      by_cases hr : l ∈ presentLabels (f.map (fun p => p.ring))
      · rw [if_pos hr]
        simpa using hringmem.mp hr
      · rw [if_neg hr]
        constructor
        · intro hs
          simp at hs
        · intro hex
          exact absurd (hringmem.mpr hex) hr
  · intro hring hinner
    rw [hfind, if_pos (hinnermem.mpr hinner), ringRecords_find,
      if_pos (hringmem.mpr hring)]
    simp [innerUpd]
  · intro hring hinner
    rw [hfind, if_neg (fun hin => hinner (hinnermem.mp hin)), ringRecords_find,
      if_pos (hringmem.mpr hring)]

/-- Witness for C8: a two-pixel frame where label 1 has one ring pixel of
intensity 4 and one inner pixel of intensity 2; its record is the full
6-tuple (4, 4, 1, 2, 2, 1). -/
theorem C8_witness :
    (measureFrame [⟨1, 0, 4⟩, ⟨0, 1, 2⟩]).find? (fun e => e.1 == 1) =
      some (1, MRecord.ringInner 4 4 1 2 2 1) := by
  have h := (C8_measurement_records [⟨1, 0, 4⟩, ⟨0, 1, 2⟩] 1 (by decide)).2.1
    ⟨⟨1, 0, 4⟩, by simp, rfl⟩ ⟨⟨0, 1, 2⟩, by simp, rfl⟩
  rw [h]
  norm_num [ringPixels, innerPixels, listMean]

/-! ## make_pairs and apply_pairing (track_cells.py) -/

/-- One deduplicated last-frame point:
pts = last.drop_duplicates(subset = particle) keeping particle, x, y and
diameter. -/
structure PairPt where
  particle : Int
  x : ℚ
  y : ℚ
  diameter : ℚ
deriving DecidableEq

/-- pandas drop_duplicates on the particle column: keep the first row of
each particle, in order. -/
def dedupByParticle (seen : List Int) : List Row → List PairPt
  | [] => []
  | r :: rest =>
    if r.particle ∈ seen then dedupByParticle seen rest
    else ⟨r.particle, r.x, r.y, r.diameter⟩ :: dedupByParticle (r.particle :: seen) rest

/-- Exact rational form of the float test
np.hypot(xi - xj, yi - yj) < 1.5 * (diams i + diams j): hypot is the
nonnegative euclidean norm, so for a real threshold thr the test holds iff
0 < thr and dx ^ 2 + dy ^ 2 < thr ^ 2. -/
def closePts (p q : PairPt) : Bool :=
  decide (0 < 3 / 2 * (p.diameter + q.diameter)) &&
    decide ((p.x - q.x) ^ 2 + (p.y - q.y) ^ 2 < (3 / 2 * (p.diameter + q.diameter)) ^ 2)

/-- Neighbor particles of one point: the double loop of make_pairs adds an
edge between two distinct deduplicated points iff the distance test holds,
so adj of a point lists the particles of the other points close to it. -/
def neighborsPt (pts : List PairPt) (p : PairPt) : List Int :=
  (pts.filter (fun q => q.particle ≠ p.particle && closePts p q)).map
    (fun q => q.particle)

/-- adj[a] looked up by particle. -/
def neighborsOf (pts : List PairPt) (a : Int) : List Int :=
  match pts.find? (fun p => p.particle == a) with
  | none => []
  | some p => neighborsPt pts p

/-- One breadth step of the component exploration: the current members
plus all their neighbors. -/
def expandOnce (pts : List PairPt) (s : List Int) : List Int :=
  (s ++ s.flatMap (neighborsOf pts)).dedup

/-- Connected component of a particle. The stack-based traversal of
make_pairs computes the particles reachable along adjacency edges;
iterating the breadth step length pts + 1 times reaches that closure
(membership only grows, and there are at most length pts + 1 candidate
members). -/
def componentOf (pts : List PairPt) (a : Int) : List Int :=
  (expandOnce pts)^[pts.length + 1] [a]

/-- The pair-collection scan of make_pairs: walk the particles in order,
skip the ones already visited, explore the component of each remaining
one, and register a two-way pair when the component has exactly two
members, both of degree 1; the partner is the component member other than
the scanned particle. Every explored component extends the visited set. -/
def collectPairs (pts : List PairPt) : List Int → List Int → List (Int × Int)
  | [], _ => []
  | a :: rest, visited =>
    if a ∈ visited then collectPairs pts rest visited
    else
      (if (componentOf pts a).length = 2 ∧
          (neighborsOf pts a).length = 1 ∧
          (neighborsOf pts (((componentOf pts a).filter (fun x => x ≠ a)).headD a)).length = 1
        then [(a, ((componentOf pts a).filter (fun x => x ≠ a)).headD a),
              (((componentOf pts a).filter (fun x => x ≠ a)).headD a, a)]
        else []) ++ collectPairs pts rest (visited ++ componentOf pts a)

/-- The deduplicated points of the last frame. -/
def lastFramePts (linked : List Row) (lastIdx : Int) : List PairPt :=
  dedupByParticle [] (linked.filter (fun r => (r.frame : Int) == lastIdx))

/-- make_pairs: empty when the axis spec has no leading time tag (and when
the last frame is empty, in which case the scan has nothing to walk);
otherwise the two-way pair dictionary collected over the deduplicated
last-frame points, in scan order. -/
def makePairs (linked : List Row) (framesLen : Nat) (axes : List Char) :
    List (Int × Int) :=
  if axes.head? ≠ some 'T' then []
  else
    collectPairs (lastFramePts linked ((framesLen : Int) - 1))
      ((lastFramePts linked ((framesLen : Int) - 1)).map (fun p => p.particle)) []

/-- linked["particle"].max() over the particle column (pandas max; the
table is nonempty whenever pairs were found). -/
def maxParticle (linked : List Row) : Int :=
  match linked.map (fun r => r.particle) with
  | [] => 0
  | p :: ps => ps.foldl max p

/-- The pair_map construction of apply_pairing: walk the pair dictionary
in insertion order; skip a pair when either member is already mapped;
otherwise map both members to the next fresh identity. -/
def buildPairMap : List (Int × Int) → Int → List (Int × Int) → List (Int × Int)
  | [], _, acc => acc
  | (p1, p2) :: rest, nextId, acc =>
    if (acc.any (fun e => e.1 == p1)) || (acc.any (fun e => e.1 == p2)) then
      buildPairMap rest nextId acc
    else
      buildPairMap rest (nextId + 1) (acc ++ [(p1, nextId), (p2, nextId)])

/-- pair_map lookup with identity default (the lambda of apply_pairing). -/
def lookupPair (m : List (Int × Int)) (p : Int) : Int :=
  match m.find? (fun e => e.1 == p) with
  | some e => e.2
  | none => p

/-- apply_pairing: no-op on an empty pair dictionary; otherwise rewrite
every row particle through the freshly built pair map, starting fresh
identities at max existing + 1. -/
def applyPairing (linked : List Row) (pairs : List (Int × Int)) : List Row :=
  if pairs.isEmpty then linked
  else
    linked.map (fun r =>
      { r with particle :=
          lookupPair (buildPairMap pairs (maxParticle linked + 1) []) r.particle })

/-- Two tracks form an isolated pair exactly when each is the sole
neighbor of the other. -/
def isolatedPair (pts : List PairPt) (a b : Int) : Prop :=
  neighborsOf pts a = [b] ∧ neighborsOf pts b = [a]

/-! ### Basic facts about the deduplicated points and adjacency -/

lemma dedupByParticle_spec (rows : List Row) :
    ∀ seen : List Int,
      ((dedupByParticle seen rows).map (fun p => p.particle)).Nodup ∧
      (∀ p ∈ dedupByParticle seen rows, p.particle ∉ seen) ∧
      (∀ p ∈ dedupByParticle seen rows,
        ∃ r ∈ rows, p = ⟨r.particle, r.x, r.y, r.diameter⟩) := by
  induction rows with
  | nil =>
    intro seen
    refine ⟨by simp [dedupByParticle], ?_, ?_⟩ <;> intro p hp <;> cases hp
  | cons r rest ih =>
    intro seen
    by_cases hs : r.particle ∈ seen
    · have heq : dedupByParticle seen (r :: rest) = dedupByParticle seen rest := by
        rw [dedupByParticle]
        rw [if_pos hs]
      rw [heq]
      obtain ⟨ih1, ih2, ih3⟩ := ih seen
      exact ⟨ih1, ih2, fun p hp => by
        obtain ⟨w, hw, hpw⟩ := ih3 p hp
        exact ⟨w, List.mem_cons_of_mem r hw, hpw⟩⟩
    · have heq : dedupByParticle seen (r :: rest) =
          ⟨r.particle, r.x, r.y, r.diameter⟩ ::
            dedupByParticle (r.particle :: seen) rest := by
        rw [dedupByParticle]
        rw [if_neg hs]
      rw [heq]
      obtain ⟨ih1, ih2, ih3⟩ := ih (r.particle :: seen)
      refine ⟨?_, ?_, ?_⟩
      · rw [List.map_cons, List.nodup_cons]
        refine ⟨?_, ih1⟩
        intro hmem
        rw [List.mem_map] at hmem
        obtain ⟨q, hq, hqp⟩ := hmem
        exact ih2 q hq (by rw [hqp]; exact List.mem_cons_self _ _)
      · intro p hp
        rcases List.mem_cons.mp hp with h | h
        · subst h
          exact hs
        · intro hcon
          exact ih2 p h (List.mem_cons_of_mem _ hcon)
      · intro p hp
        rcases List.mem_cons.mp hp with h | h
        · exact ⟨r, List.mem_cons_self r rest, h⟩
        · obtain ⟨w, hw, hpw⟩ := ih3 p h
          exact ⟨w, List.mem_cons_of_mem r hw, hpw⟩

lemma closePts_comm (p q : PairPt) : closePts p q = closePts q p := by
  unfold closePts
  have h1 : p.diameter + q.diameter = q.diameter + p.diameter := add_comm _ _
  have h2 : (p.x - q.x) ^ 2 = (q.x - p.x) ^ 2 := by ring
  have h3 : (p.y - q.y) ^ 2 = (q.y - p.y) ^ 2 := by ring
  rw [h1, h2, h3]

lemma mem_neighborsPt (pts : List PairPt) (p : PairPt) (b : Int) :
    b ∈ neighborsPt pts p ↔
      ∃ q ∈ pts, q.particle = b ∧ q.particle ≠ p.particle ∧ closePts p q = true := by
  unfold neighborsPt
  simp only [List.mem_map, List.mem_filter, Bool.and_eq_true, decide_eq_true_eq,
    ne_eq]
  constructor
  · rintro ⟨q, ⟨hq, hne, hc⟩, hb⟩
    exact ⟨q, hq, hb, by simpa using hne, hc⟩
  · rintro ⟨q, hq, hb, hne, hc⟩
    exact ⟨q, ⟨hq, by simpa using hne, hc⟩, hb⟩

lemma particle_inj (pts : List PairPt)
    (hn : (pts.map (fun p => p.particle)).Nodup) :
    ∀ p ∈ pts, ∀ q ∈ pts, p.particle = q.particle → p = q := by
  intro p hp q hq hpq
  exact List.inj_on_of_nodup_map hn hp hq hpq

lemma find_particle_eq (pts : List PairPt)
    (hn : (pts.map (fun p => p.particle)).Nodup) (p : PairPt) (hp : p ∈ pts) :
    pts.find? (fun q => q.particle == p.particle) = some p := by
  induction pts with
  | nil => cases hp
  | cons q qs ih =>
    rw [List.map_cons, List.nodup_cons] at hn
    rcases List.mem_cons.mp hp with h | h
    · subst h
      rw [List.find?_cons]
      simp
    · have hqp : q.particle ≠ p.particle := by
        intro hc
        exact hn.1 (by rw [hc]; exact List.mem_map_of_mem (fun x => x.particle) h)
      rw [List.find?_cons]
      have : (q.particle == p.particle) = false := by simpa using hqp
      rw [this]
      exact ih hn.2 h

lemma neighborsOf_of_mem (pts : List PairPt)
    (hn : (pts.map (fun p => p.particle)).Nodup) (p : PairPt) (hp : p ∈ pts) :
    neighborsOf pts p.particle = neighborsPt pts p := by
  unfold neighborsOf
  rw [find_particle_eq pts hn p hp]

lemma neighborsOf_sub (pts : List PairPt) (a : Int) :
    ∀ b ∈ neighborsOf pts a, ∃ q ∈ pts, q.particle = b := by
  intro b hb
  unfold neighborsOf at hb
  cases hfind : pts.find? (fun p => p.particle == a) with
  | none => rw [hfind] at hb; cases hb
  | some p =>
    rw [hfind] at hb
    rw [mem_neighborsPt] at hb
    obtain ⟨q, hq, hqb, _, _⟩ := hb
    exact ⟨q, hq, hqb⟩

lemma neighborsOf_mem_pts (pts : List PairPt) (a : Int)
    (h : neighborsOf pts a ≠ []) : ∃ p ∈ pts, p.particle = a := by
  unfold neighborsOf at h
  cases hfind : pts.find? (fun p => p.particle == a) with
  | none => rw [hfind] at h; exact absurd rfl h
  | some p =>
    have hmem := List.mem_of_find?_eq_some hfind
    have hbeq := List.find?_some hfind
    exact ⟨p, hmem, by simpa using hbeq⟩

lemma not_self_neighbor (pts : List PairPt) (a : Int) : a ∉ neighborsOf pts a := by
  unfold neighborsOf
  cases hfind : pts.find? (fun p => p.particle == a) with
  | none => simp
  | some p =>
    have hbeq : p.particle = a := by simpa using List.find?_some hfind
    rw [mem_neighborsPt]
    rintro ⟨q, _, hqa, hqp, _⟩
    rw [hbeq] at hqp
    exact hqp hqa

lemma neighbor_symm (pts : List PairPt)
    (hn : (pts.map (fun p => p.particle)).Nodup) (x y : Int)
    (h : x ∈ neighborsOf pts y) : y ∈ neighborsOf pts x := by
  unfold neighborsOf at h
  cases hfind : pts.find? (fun p => p.particle == y) with
  | none => rw [hfind] at h; cases h
  | some py =>
    rw [hfind] at h
    have hpym := List.mem_of_find?_eq_some hfind
    have hpyp : py.particle = y := by simpa using List.find?_some hfind
    rw [mem_neighborsPt] at h
    obtain ⟨qx, hqx, hqxp, hqxne, hclose⟩ := h
    rw [← hqxp, neighborsOf_of_mem pts hn qx hqx, mem_neighborsPt]
    refine ⟨py, hpym, hpyp, ?_, ?_⟩
    · rw [hpyp, hqxp]
      intro hc
      rw [hpyp] at hqxne
      exact hqxne (hqxp ▸ hc.symm ▸ rfl)
    · rw [closePts_comm]
      exact hclose

lemma isolatedPair_symm (pts : List PairPt) (a b : Int)
    (h : isolatedPair pts a b) : isolatedPair pts b a :=
  ⟨h.2, h.1⟩

lemma isolatedPair_ne (pts : List PairPt) (a b : Int)
    (h : isolatedPair pts a b) : a ≠ b := by
  intro hc
  subst hc
  exact not_self_neighbor pts a (by rw [h.1]; exact List.mem_singleton.mpr rfl)

lemma isolatedPair_mem (pts : List PairPt) (a b : Int)
    (h : isolatedPair pts a b) : a ∈ pts.map (fun p => p.particle) := by
  have := neighborsOf_mem_pts pts a (by rw [h.1]; exact List.cons_ne_nil b [])
  obtain ⟨p, hp, hpa⟩ := this
  rw [List.mem_map]
  exact ⟨p, hp, hpa⟩

lemma isolatedPair_unique (pts : List PairPt) (a b c : Int)
    (h1 : isolatedPair pts a b) (h2 : isolatedPair pts a c) : b = c := by
  have hb := h1.1
  have hc := h2.1
  rw [hb] at hc
  exact (List.cons.injEq b [] c []).mp hc |>.1

/-! ### Component exploration -/

lemma mem_expandOnce (pts : List PairPt) (s : List Int) (x : Int) :
    x ∈ expandOnce pts s ↔ x ∈ s ∨ ∃ y ∈ s, x ∈ neighborsOf pts y := by
  unfold expandOnce
  rw [List.mem_dedup, List.mem_append, List.mem_flatMap]

lemma subset_expandOnce (pts : List PairPt) (s : List Int) :
    ∀ x ∈ s, x ∈ expandOnce pts s := by
  intro x hx
  rw [mem_expandOnce]
  exact Or.inl hx

lemma expandOnce_mono (pts : List PairPt) (s t : List Int)
    (hsub : ∀ x ∈ s, x ∈ t) : ∀ x ∈ expandOnce pts s, x ∈ expandOnce pts t := by
  intro x hx
  rw [mem_expandOnce] at hx ⊢
  rcases hx with h | ⟨y, hy, hxy⟩
  · exact Or.inl (hsub x h)
  · exact Or.inr ⟨y, hsub y hy, hxy⟩

lemma mem_iterate_of_mem (pts : List PairPt) :
    ∀ (m : Nat) (u : List Int) (x : Int), x ∈ u → x ∈ (expandOnce pts)^[m] u := by
  intro m
  induction m with
  | zero => intro u x hx; exact hx
  | succ k ih =>
    intro u x hx
    rw [Function.iterate_succ_apply]
    exact ih (expandOnce pts u) x (subset_expandOnce pts u x hx)

lemma mem_iterate_le (pts : List PairPt) (k m : Nat) (hkm : k ≤ m) (s : List Int)
    (x : Int) (hx : x ∈ (expandOnce pts)^[k] s) : x ∈ (expandOnce pts)^[m] s := by
  obtain ⟨d, rfl⟩ := Nat.exists_eq_add_of_le hkm
  rw [Nat.add_comm, Function.iterate_add_apply]
  exact mem_iterate_of_mem pts d _ x hx

lemma componentOf_nodup (pts : List PairPt) (a : Int) :
    (componentOf pts a).Nodup := by
  unfold componentOf
  rw [Function.iterate_succ_apply']
  exact List.nodup_dedup _

lemma self_mem_componentOf (pts : List PairPt) (a : Int) :
    a ∈ componentOf pts a :=
  mem_iterate_of_mem pts (pts.length + 1) [a] a (List.mem_singleton.mpr rfl)

lemma neighbor_mem_componentOf (pts : List PairPt) (a x : Int)
    (hx : x ∈ neighborsOf pts a) : x ∈ componentOf pts a := by
  unfold componentOf
  apply mem_iterate_le pts 1 (pts.length + 1) (by omega)
  rw [Function.iterate_one, mem_expandOnce]
  exact Or.inr ⟨a, List.mem_singleton.mpr rfl, hx⟩

lemma componentOf_isolated_mem (pts : List PairPt) (a b : Int)
    (h : isolatedPair pts a b) :
    ∀ x, x ∈ componentOf pts a ↔ (x = a ∨ x = b) := by
  have hstep : ∀ m x, x ∈ (expandOnce pts)^[m + 1] [a] ↔ (x = a ∨ x = b) := by
    intro m
    induction m with
    | zero =>
      intro x
      rw [Function.iterate_one, mem_expandOnce]
      constructor
      · rintro (hx | ⟨y, hy, hxy⟩)
        · exact Or.inl (List.mem_singleton.mp hx)
        · have hya : y = a := List.mem_singleton.mp hy
          subst hya
          rw [h.1] at hxy
          exact Or.inr (List.mem_singleton.mp hxy)
      · rintro (rfl | rfl)
        · exact Or.inl (List.mem_singleton.mpr rfl)
        · exact Or.inr ⟨a, List.mem_singleton.mpr rfl, by rw [h.1]; exact List.mem_singleton.mpr rfl⟩
    | succ k ih =>
      intro x
      rw [Function.iterate_succ_apply', mem_expandOnce]
      constructor
      · rintro (hx | ⟨y, hy, hxy⟩)
        · exact (ih x).mp hx
        · rcases (ih y).mp hy with rfl | rfl
          · rw [h.1] at hxy
            exact Or.inr (List.mem_singleton.mp hxy)
          · rw [h.2] at hxy
            exact Or.inl (List.mem_singleton.mp hxy)
      · intro hx
        exact Or.inl ((ih x).mpr hx)
  intro x
  unfold componentOf
  exact hstep pts.length x

lemma componentOf_isolated_len (pts : List PairPt) (a b : Int)
    (h : isolatedPair pts a b) : (componentOf pts a).length = 2 := by
  have hmem := componentOf_isolated_mem pts a b h
  have hne := isolatedPair_ne pts a b h
  have hnodup := componentOf_nodup pts a
  have hfin : (componentOf pts a).toFinset = {a, b} := by
    ext x
    rw [List.mem_toFinset, hmem x]
    simp
  have hlen : (componentOf pts a).toFinset.card = (componentOf pts a).length :=
    List.toFinset_card_of_nodup hnodup
  rw [← hlen, hfin]
  rw [Finset.card_insert_of_not_mem (by simpa using hne), Finset.card_singleton]

lemma isolated_confined (pts : List PairPt)
    (hn : (pts.map (fun p => p.particle)).Nodup) (a b : Int)
    (h : isolatedPair pts a b) :
    ∀ (k : Nat) (c : Int),
      (a ∈ (expandOnce pts)^[k] [c] ∨ b ∈ (expandOnce pts)^[k] [c]) →
      c = a ∨ c = b := by
  intro k
  induction k with
  | zero =>
    intro c hc
    rcases hc with h1 | h1
    · exact Or.inl (List.mem_singleton.mp h1).symm
    · exact Or.inr (List.mem_singleton.mp h1).symm
  | succ m ih =>
    intro c hc
    rcases hc with h1 | h1
    · rw [Function.iterate_succ_apply', mem_expandOnce] at h1
      rcases h1 with h2 | ⟨y, hy, hxy⟩
      · exact ih c (Or.inl h2)
      · have hyb : y ∈ neighborsOf pts a := neighbor_symm pts hn a y hxy
        rw [h.1] at hyb
        have : y = b := List.mem_singleton.mp hyb
        subst this
        exact ih c (Or.inr hy)
    · rw [Function.iterate_succ_apply', mem_expandOnce] at h1
      rcases h1 with h2 | ⟨y, hy, hxy⟩
      · exact ih c (Or.inr h2)
      · have hya : y ∈ neighborsOf pts b := neighbor_symm pts hn b y hxy
        rw [h.2] at hya
        have : y = a := List.mem_singleton.mp hya
        subst this
        exact ih c (Or.inl hy)

lemma componentOf_confined (pts : List PairPt)
    (hn : (pts.map (fun p => p.particle)).Nodup) (a b : Int)
    (h : isolatedPair pts a b) (c : Int)
    (hc : a ∈ componentOf pts c ∨ b ∈ componentOf pts c) : c = a ∨ c = b :=
  isolated_confined pts hn a b h (pts.length + 1) c hc

lemma nodup_two_list (comp : List Int) (a b : Int) (hnodup : comp.Nodup)
    (hmem : ∀ x, x ∈ comp ↔ (x = a ∨ x = b)) (hab : a ≠ b) :
    comp = [a, b] ∨ comp = [b, a] := by
  have hma : a ∈ comp := (hmem a).mpr (Or.inl rfl)
  have hmb : b ∈ comp := (hmem b).mpr (Or.inr rfl)
  cases comp with
  | nil => cases hma
  | cons u rest =>
    cases rest with
    | nil =>
      have h1 : a = u := List.mem_singleton.mp hma
      have h2 : b = u := List.mem_singleton.mp hmb
      exact absurd (h1.trans h2.symm) hab
    | cons v rest2 =>
      have hrest2 : rest2 = [] := by
        cases hre : rest2 with
        | nil => rfl
        | cons z zs =>
          exfalso
          rw [List.nodup_cons, List.nodup_cons] at hnodup
          have hz : z ∈ u :: v :: rest2 := by
            rw [hre]
            exact List.mem_cons_of_mem u (List.mem_cons_of_mem v (List.mem_cons_self z zs))
          have hu : u = a ∨ u = b := (hmem u).mp (List.mem_cons_self u _)
          have hv : v = a ∨ v = b := (hmem v).mp
            (List.mem_cons_of_mem u (List.mem_cons_self v _))
          have hzm : z = a ∨ z = b := (hmem z).mp hz
          have huv : u ≠ v := by
            intro hc
            exact hnodup.1 (hc ▸ List.mem_cons_self v rest2)
          have hzu : z ≠ u := by
            intro hc
            apply hnodup.1
            rw [← hc, hre]
            exact List.mem_cons_of_mem v (List.mem_cons_self z zs)
          have hzv : z ≠ v := by
            intro hc
            apply hnodup.2.1
            rw [← hc, hre]
            exact List.mem_cons_self z zs
          rcases hu with rfl | rfl <;> rcases hv with rfl | rfl <;>
            rcases hzm with rfl | rfl <;> simp_all
      subst hrest2
      have hu : u = a ∨ u = b := (hmem u).mp (List.mem_cons_self u _)
      have hv : v = a ∨ v = b := (hmem v).mp
        (List.mem_cons_of_mem u (List.mem_cons_self v _))
      have huv : u ≠ v := by
        rw [List.nodup_cons] at hnodup
        intro hc
        exact hnodup.1 (hc ▸ List.mem_cons_self v [])
      rcases hu with rfl | rfl
      · rcases hv with rfl | rfl
        · exact absurd rfl huv
        · exact Or.inl rfl
      · rcases hv with rfl | rfl
        · exact Or.inr rfl
        · exact absurd rfl huv

lemma extraction_eq_partner (pts : List PairPt) (a b : Int)
    (hiso : isolatedPair pts a b) :
    ((componentOf pts a).filter (fun x => x ≠ a)).headD a = b := by
  have hab := isolatedPair_ne pts a b hiso
  have htwo := nodup_two_list (componentOf pts a) a b (componentOf_nodup pts a)
    (componentOf_isolated_mem pts a b hiso) hab
  rcases htwo with h | h <;> rw [h] <;> simp [hab, Ne.symm hab]

/-! ### The pair-collection scan -/

lemma scanCond_isolated (pts : List PairPt)
    (hn : (pts.map (fun p => p.particle)).Nodup) (c : Int)
    (hlen : (componentOf pts c).length = 2)
    (hdc : (neighborsOf pts c).length = 1)
    (hdb : (neighborsOf pts
      (((componentOf pts c).filter (fun x => x ≠ c)).headD c)).length = 1) :
    isolatedPair pts c (((componentOf pts c).filter (fun x => x ≠ c)).headD c) := by
  obtain ⟨x, hx⟩ := List.length_eq_one.mp hdc
  have hxc : x ≠ c := by
    intro hcon
    exact not_self_neighbor pts c (by rw [hx, hcon]; exact List.mem_singleton.mpr rfl)
  have hxcomp : x ∈ componentOf pts c :=
    neighbor_mem_componentOf pts c x (by rw [hx]; exact List.mem_singleton.mpr rfl)
  have hccomp : c ∈ componentOf pts c := self_mem_componentOf pts c
  obtain ⟨u, v, huv⟩ := List.length_eq_two.mp hlen
  have hnodup := componentOf_nodup pts c
  rw [huv] at hnodup hxcomp hccomp
  have huvne : u ≠ v := by
    rw [List.nodup_cons] at hnodup
    intro hcon
    exact hnodup.1 (hcon ▸ List.mem_cons_self v [])
  have hcuv : c = u ∨ c = v := by
    rcases List.mem_cons.mp hccomp with h | h
    · exact Or.inl h
    · exact Or.inr (List.mem_singleton.mp h)
  have hxuv : x = u ∨ x = v := by
    rcases List.mem_cons.mp hxcomp with h | h
    · exact Or.inl h
    · exact Or.inr (List.mem_singleton.mp h)
  have hext : (((componentOf pts c).filter (fun x => x ≠ c)).headD c) = x := by
    rw [huv]
    rcases hcuv with rfl | rfl
    · rcases hxuv with rfl | rfl
      · exact absurd rfl hxc
      · simp [huvne, Ne.symm huvne]
    · rcases hxuv with rfl | rfl
      · simp [huvne, Ne.symm huvne]
      · exact absurd rfl hxc
  rw [hext] at hdb ⊢
  refine ⟨hx, ?_⟩
  obtain ⟨y, hy⟩ := List.length_eq_one.mp hdb
  have hcx : c ∈ neighborsOf pts x :=
    neighbor_symm pts hn x c (by rw [hx]; exact List.mem_singleton.mpr rfl)
  rw [hy] at hcx ⊢
  rw [List.mem_singleton.mp hcx]

lemma scanCond_of_isolated (pts : List PairPt) (a b : Int)
    (hiso : isolatedPair pts a b) :
    (componentOf pts a).length = 2 ∧ (neighborsOf pts a).length = 1 ∧
      (neighborsOf pts
        (((componentOf pts a).filter (fun x => x ≠ a)).headD a)).length = 1 := by
  have hext := extraction_eq_partner pts a b hiso
  rw [hext]
  exact ⟨componentOf_isolated_len pts a b hiso, by rw [hiso.1]; rfl, by rw [hiso.2]; rfl⟩

lemma collectPairs_sound (pts : List PairPt)
    (hn : (pts.map (fun p => p.particle)).Nodup) :
    ∀ (order visited : List Int) (x y : Int),
      (x, y) ∈ collectPairs pts order visited → isolatedPair pts x y := by
  intro order
  induction order with
  | nil =>
    intro visited x y h
    cases h
  | cons c rest ih =>
    intro visited x y h
    rw [collectPairs] at h
    by_cases hv : c ∈ visited
    · rw [if_pos hv] at h
      exact ih visited x y h
    · rw [if_neg hv] at h
      rw [List.mem_append] at h
      rcases h with h | h
      · by_cases hcond : (componentOf pts c).length = 2 ∧
            (neighborsOf pts c).length = 1 ∧
            (neighborsOf pts
              (((componentOf pts c).filter (fun x => x ≠ c)).headD c)).length = 1
        · rw [if_pos hcond] at h
          have hiso := scanCond_isolated pts hn c hcond.1 hcond.2.1 hcond.2.2
          rcases List.mem_cons.mp h with h2 | h2
          · have hx : x = c ∧ y = ((componentOf pts c).filter (fun x => x ≠ c)).headD c := by
              injection h2 with h3 h4
              exact ⟨h3, h4⟩
            rw [hx.1, hx.2]
            exact hiso
          · rcases List.mem_cons.mp h2 with h3 | h3
            · have hx : x = ((componentOf pts c).filter (fun x => x ≠ c)).headD c ∧ y = c := by
                injection h3 with h4 h5
                exact ⟨h4, h5⟩
              rw [hx.1, hx.2]
              exact isolatedPair_symm pts _ _ hiso
            · cases h3
        · rw [if_neg hcond] at h
          cases h
      · exact ih _ x y h

lemma collectPairs_complete (pts : List PairPt)
    (hn : (pts.map (fun p => p.particle)).Nodup) (a b : Int)
    (hiso : isolatedPair pts a b) :
    ∀ (order visited : List Int),
      (a ∈ order ∨ b ∈ order) → a ∉ visited → b ∉ visited →
      (a, b) ∈ collectPairs pts order visited := by
  intro order
  induction order with
  | nil =>
    rintro visited (h | h) _ _ <;> cases h
  | cons c rest ih =>
    intro visited hor hav hbv
    rw [collectPairs]
    by_cases hv : c ∈ visited
    · rw [if_pos hv]
      apply ih visited ?_ hav hbv
      rcases hor with h | h
      · rcases List.mem_cons.mp h with rfl | h2
        · exact absurd hv hav
        · exact Or.inl h2
      · rcases List.mem_cons.mp h with rfl | h2
        · exact absurd hv hbv
        · exact Or.inr h2
    · rw [if_neg hv]
      rw [List.mem_append]
      by_cases hca : c = a
      · subst hca
        left
        have hcond := scanCond_of_isolated pts c b hiso
        rw [if_pos hcond]
        have hext := extraction_eq_partner pts c b hiso
        rw [hext]
        exact List.mem_cons_self _ _
      · by_cases hcb : c = b
        · subst hcb
          left
          have hiso2 := isolatedPair_symm pts a c hiso
          have hcond := scanCond_of_isolated pts c a hiso2
          rw [if_pos hcond]
          have hext := extraction_eq_partner pts c a hiso2
          rw [hext]
          exact List.mem_cons_of_mem _ (List.mem_cons_self _ _)
        · right
          apply ih (visited ++ componentOf pts c) ?_ ?_ ?_
          · rcases hor with h | h
            · rcases List.mem_cons.mp h with rfl | h2
              · exact absurd rfl hca
              · exact Or.inl h2
            · rcases List.mem_cons.mp h with rfl | h2
              · exact absurd rfl hcb
              · exact Or.inr h2
          · intro hcon
            rcases List.mem_append.mp hcon with h2 | h2
            · exact hav h2
            · rcases componentOf_confined pts hn a b hiso c (Or.inl h2) with h3 | h3
              · exact hca h3
              · exact hcb h3
          · intro hcon
            rcases List.mem_append.mp hcon with h2 | h2
            · exact hbv h2
            · rcases componentOf_confined pts hn a b hiso c (Or.inr h2) with h3 | h3
              · exact hca h3
              · exact hcb h3

lemma lastFramePts_nodup (linked : List Row) (lastIdx : Int) :
    ((lastFramePts linked lastIdx).map (fun p => p.particle)).Nodup :=
  (dedupByParticle_spec (linked.filter (fun r => (r.frame : Int) == lastIdx)) []).1

lemma makePairs_mem_iff (linked : List Row) (framesLen : Nat) (axes : List Char)
    (hT : axes.head? = some 'T') (x y : Int) :
    (x, y) ∈ makePairs linked framesLen axes ↔
      isolatedPair (lastFramePts linked ((framesLen : Int) - 1)) x y := by
  unfold makePairs
  rw [if_neg (by simp [hT])]
  have hn := lastFramePts_nodup linked ((framesLen : Int) - 1)
  constructor
  · intro h
    exact collectPairs_sound _ hn _ [] x y h
  · intro hiso
    apply collectPairs_complete _ hn x y hiso
    · exact Or.inl (isolatedPair_mem _ x y hiso)
    · simp
    · simp

/-! ### The pair map of apply_pairing -/

/-- Structural properties of the pair dictionary produced by make_pairs:
symmetric, functional, and irreflexive. -/
def goodPairs (P : List (Int × Int)) : Prop :=
  (∀ x y, (x, y) ∈ P → (y, x) ∈ P) ∧
  (∀ x y z, (x, y) ∈ P → (x, z) ∈ P → y = z) ∧
  (∀ x y, (x, y) ∈ P → x ≠ y)

lemma makePairs_good (linked : List Row) (framesLen : Nat) (axes : List Char) :
    goodPairs (makePairs linked framesLen axes) := by
  by_cases hT : axes.head? = some 'T'
  · refine ⟨?_, ?_, ?_⟩
    · intro x y h
      rw [makePairs_mem_iff linked framesLen axes hT] at h ⊢
      exact isolatedPair_symm _ x y h
    · intro x y z h1 h2
      rw [makePairs_mem_iff linked framesLen axes hT] at h1 h2
      exact isolatedPair_unique _ x y z h1 h2
    · intro x y h
      rw [makePairs_mem_iff linked framesLen axes hT] at h
      exact isolatedPair_ne _ x y h
  · have : makePairs linked framesLen axes = [] := by
      unfold makePairs
      rw [if_pos (by simpa using hT)]
    rw [this]
    refine ⟨?_, ?_, ?_⟩
    · intro x y h
      cases h
    · intro x y z h1 h2
      cases h1
    · intro x y h
      cases h

lemma buildPairMap_spec (P0 : List (Int × Int)) (hgood : goodPairs P0) :
    ∀ (pairs : List (Int × Int)) (nid : Int) (acc : List (Int × Int)),
      (∀ e ∈ pairs, e ∈ P0) →
      (∀ e ∈ acc, e.2 < nid) →
      ((acc.map Prod.fst).Nodup) →
      (∀ e1 ∈ acc, ∀ e2 ∈ acc, e1.2 = e2.2 → e1.1 = e2.1 ∨ (e1.1, e2.1) ∈ P0) →
      (∀ x y i, (x, y) ∈ P0 → (x, i) ∈ acc → (y, i) ∈ acc) →
      (∀ e ∈ acc, e ∈ buildPairMap pairs nid acc) ∧
      (∀ e ∈ buildPairMap pairs nid acc, e ∈ acc ∨ nid ≤ e.2) ∧
      ((buildPairMap pairs nid acc).map Prod.fst).Nodup ∧
      (∀ e1 ∈ buildPairMap pairs nid acc, ∀ e2 ∈ buildPairMap pairs nid acc,
        e1.2 = e2.2 → e1.1 = e2.1 ∨ (e1.1, e2.1) ∈ P0) ∧
      (∀ x y i, (x, y) ∈ P0 → (x, i) ∈ buildPairMap pairs nid acc →
        (y, i) ∈ buildPairMap pairs nid acc) ∧
      (∀ x y, (x, y) ∈ pairs →
        ∃ i, (x, i) ∈ buildPairMap pairs nid acc ∧
          (y, i) ∈ buildPairMap pairs nid acc) := by
  intro pairs
  induction pairs with
  | nil =>
    intro nid acc hsub hlt hnodup hsame hpart
    refine ⟨fun e he => he, fun e he => Or.inl he, hnodup, hsame, ?_, ?_⟩
    · intro x y i hx hmem
      exact hpart x y i hx hmem
    · intro x y h
      cases h
  | cons pr rest ih =>
    intro nid acc hsub hlt hnodup hsame hpart
    obtain ⟨p1, p2⟩ := pr
    have hpmem : (p1, p2) ∈ P0 := hsub (p1, p2) (List.mem_cons_self _ _)
    have hrsub : ∀ e ∈ rest, e ∈ P0 := fun e he => hsub e (List.mem_cons_of_mem _ he)
    rw [buildPairMap]
    by_cases hskip : ((acc.any (fun e => e.1 == p1)) || (acc.any (fun e => e.1 == p2))) = true
    · rw [if_pos hskip]
      obtain ⟨r1, r2, r3, r4, r5, r6⟩ := ih nid acc hrsub hlt hnodup hsame hpart
      refine ⟨r1, r2, r3, r4, r5, ?_⟩
      intro x y hxy
      rcases List.mem_cons.mp hxy with heq | hmem
      · injection heq with hx hy
        subst hx
        subst hy
        rw [Bool.or_eq_true] at hskip
        have hx1 : ∃ i, (x, i) ∈ acc := by
          rcases hskip with h | h
          · rw [List.any_eq_true] at h
            obtain ⟨e, he, hbeq⟩ := h
            refine ⟨e.2, ?_⟩
            have : e.1 = x := by simpa using hbeq
            rw [← this]
            exact he
          · rw [List.any_eq_true] at h
            obtain ⟨e, he, hbeq⟩ := h
            have he1 : e.1 = y := by simpa using hbeq
            have hy2 : (y, e.2) ∈ acc := by rw [← he1]; exact he
            refine ⟨e.2, ?_⟩
            exact hpart y x e.2 (hgood.1 x y hpmem) hy2
        obtain ⟨i, hi⟩ := hx1
        exact ⟨i, r1 _ hi, r1 _ (hpart x y i hpmem hi)⟩
      · exact r6 x y hmem
    · rw [if_neg hskip]
      have hp12 : p1 ≠ p2 := hgood.2.2 p1 p2 hpmem
      have hnp1 : p1 ∉ acc.map Prod.fst := by
        intro hcon
        rw [List.mem_map] at hcon
        obtain ⟨e, he, he1⟩ := hcon
        apply hskip
        rw [Bool.or_eq_true]
        left
        rw [List.any_eq_true]
        exact ⟨e, he, by simpa using he1⟩
      have hnp2 : p2 ∉ acc.map Prod.fst := by
        intro hcon
        rw [List.mem_map] at hcon
        obtain ⟨e, he, he1⟩ := hcon
        apply hskip
        rw [Bool.or_eq_true]
        right
        rw [List.any_eq_true]
        exact ⟨e, he, by simpa using he1⟩
      set acc2 := acc ++ [(p1, nid), (p2, nid)] with hacc2
      have hlt2 : ∀ e ∈ acc2, e.2 < nid + 1 := by
        intro e he
        rcases List.mem_append.mp he with h | h
        · have := hlt e h
          omega
        · rcases List.mem_cons.mp h with rfl | h2
          · omega
          · rcases List.mem_cons.mp h2 with rfl | h3
            · omega
            · cases h3
      have hnodup2 : (acc2.map Prod.fst).Nodup := by
        rw [hacc2, List.map_append]
        rw [List.nodup_append]
        refine ⟨hnodup, ?_, ?_⟩
        · show (([(p1, nid), (p2, nid)] : List (Int × Int)).map Prod.fst).Nodup
          simp [hp12]
        · intro x hx hx2
          simp only [List.map_cons, List.map_nil] at hx2
          rcases List.mem_cons.mp hx2 with rfl | h2
          · exact hnp1 hx
          · rcases List.mem_cons.mp h2 with rfl | h3
            · exact hnp2 hx
            · cases h3
      have hmem2 : ∀ e, e ∈ acc2 ↔ (e ∈ acc ∨ e = (p1, nid) ∨ e = (p2, nid)) := by
        intro e
        rw [hacc2, List.mem_append]
        simp
      have hsame2 : ∀ e1 ∈ acc2, ∀ e2 ∈ acc2, e1.2 = e2.2 →
          e1.1 = e2.1 ∨ (e1.1, e2.1) ∈ P0 := by
        intro e1 he1 e2 he2 hv
        rcases (hmem2 e1).mp he1 with h1 | h1 | h1 <;>
          rcases (hmem2 e2).mp he2 with h2 | h2 | h2
        · exact hsame e1 h1 e2 h2 hv
        · exfalso; have := hlt e1 h1; rw [h2] at hv; simp at hv; omega
        · exfalso; have := hlt e1 h1; rw [h2] at hv; simp at hv; omega
        · exfalso; have := hlt e2 h2; rw [h1] at hv; simp at hv; omega
        · left; rw [h1, h2]
        · right; rw [h1, h2]; exact hpmem
        · exfalso; have := hlt e2 h2; rw [h1] at hv; simp at hv; omega
        · right; rw [h1, h2]; exact hgood.1 p1 p2 hpmem
        · left; rw [h1, h2]
      have hpart2 : ∀ x y i, (x, y) ∈ P0 → (x, i) ∈ acc2 → (y, i) ∈ acc2 := by
        intro x y i hxy hxi
        rcases (hmem2 (x, i)).mp hxi with h1 | h1 | h1
        · exact (hmem2 (y, i)).mpr (Or.inl (hpart x y i hxy h1))
        · injection h1 with hx hi
          rw [hi]
          have hyp2 : y = p2 := hgood.2.1 p1 y p2 (hx ▸ hxy) hpmem
          rw [hyp2]
          exact (hmem2 (p2, nid)).mpr (Or.inr (Or.inr rfl))
        · injection h1 with hx hi
          rw [hi]
          have hyp1 : y = p1 := hgood.2.1 p2 y p1 (hx ▸ hxy) (hgood.1 p1 p2 hpmem)
          rw [hyp1]
          exact (hmem2 (p1, nid)).mpr (Or.inr (Or.inl rfl))
      obtain ⟨r1, r2, r3, r4, r5, r6⟩ := ih (nid + 1) acc2 hrsub hlt2 hnodup2 hsame2 hpart2
      refine ⟨?_, ?_, r3, r4, r5, ?_⟩
      · intro e he
        exact r1 e ((hmem2 e).mpr (Or.inl he))
      · intro e he
        rcases r2 e he with h | h
        · rcases (hmem2 e).mp h with h1 | h1 | h1
          · exact Or.inl h1
          · right; rw [h1]
          · right; rw [h1]
        · right; omega
      · intro x y hxy
        rcases List.mem_cons.mp hxy with heq | hmem
        · injection heq with hx hy
          subst hx
          subst hy
          refine ⟨nid, ?_, ?_⟩
          · exact r1 _ ((hmem2 (x, nid)).mpr (Or.inr (Or.inl rfl)))
          · exact r1 _ ((hmem2 (y, nid)).mpr (Or.inr (Or.inr rfl)))
        · exact r6 x y hmem

lemma find_key_of_mem (m : List (Int × Int)) (hk : (m.map Prod.fst).Nodup)
    (x i : Int) (hm : (x, i) ∈ m) : m.find? (fun e => e.1 == x) = some (x, i) := by
  induction m with
  | nil => cases hm
  | cons e es ih =>
    rw [List.map_cons, List.nodup_cons] at hk
    rcases List.mem_cons.mp hm with heq | hmem
    · rw [← heq]
      rw [List.find?_cons]
      simp
    · have hne : e.1 ≠ x := by
        intro hc
        apply hk.1
        rw [hc]
        exact List.mem_map_of_mem Prod.fst hmem
      have hbeq : (e.1 == x) = false := by simpa using hne
      simp only [List.find?_cons, hbeq]
      exact ih hk.2 hmem

lemma find_key_none (m : List (Int × Int)) (x : Int)
    (h : ∀ e ∈ m, e.1 ≠ x) : m.find? (fun e => e.1 == x) = none := by
  rw [List.find?_eq_none]
  intro e he
  simpa using h e he

lemma lookupPair_of_mem (m : List (Int × Int)) (hk : (m.map Prod.fst).Nodup)
    (x i : Int) (hm : (x, i) ∈ m) : lookupPair m x = i := by
  unfold lookupPair
  rw [find_key_of_mem m hk x i hm]

lemma lookupPair_of_not_mem (m : List (Int × Int)) (x : Int)
    (h : ∀ e ∈ m, e.1 ≠ x) : lookupPair m x = x := by
  unfold lookupPair
  rw [find_key_none m x h]

lemma mergedIds_iff (P : List (Int × Int)) (hgood : goodPairs P) (nid a b : Int)
    (hab : a ≠ b) (ha : a < nid) (hb : b < nid) :
    lookupPair (buildPairMap P nid []) a = lookupPair (buildPairMap P nid []) b ↔
      (a, b) ∈ P := by
  obtain ⟨r1, r2, r3, r4, r5, r6⟩ := buildPairMap_spec P hgood P nid []
    (fun e he => he) (by intro e he; cases he) (by simp)
    (by intro e1 h1; cases h1) (by intro x y i hxy h; cases h)
  constructor
  · intro heq
    by_cases hfa : ∃ i, (a, i) ∈ buildPairMap P nid []
    · obtain ⟨i, hi⟩ := hfa
      have hla : lookupPair (buildPairMap P nid []) a = i :=
        lookupPair_of_mem _ r3 a i hi
      by_cases hfb : ∃ j, (b, j) ∈ buildPairMap P nid []
      · obtain ⟨j, hj⟩ := hfb
        have hlb : lookupPair (buildPairMap P nid []) b = j :=
          lookupPair_of_mem _ r3 b j hj
        have hij : i = j := by rw [hla, hlb] at heq; exact heq
        subst hij
        rcases r4 (a, i) hi (b, i) hj rfl with h | h
        · exact absurd (by simpa using h) hab
        · simpa using h
      · push_neg at hfb
        have hlb : lookupPair (buildPairMap P nid []) b = b := by
          apply lookupPair_of_not_mem
          intro e he hc
          apply hfb e.2
          rw [← hc]
          exact he
        have hib : i = b := by rw [hla, hlb] at heq; exact heq
        have hge : nid ≤ i := by
          rcases r2 (a, i) hi with h | h
          · cases h
          · simpa using h
        omega
    · push_neg at hfa
      have hla : lookupPair (buildPairMap P nid []) a = a := by
        apply lookupPair_of_not_mem
        intro e he hc
        apply hfa e.2
        rw [← hc]
        exact he
      by_cases hfb : ∃ j, (b, j) ∈ buildPairMap P nid []
      · obtain ⟨j, hj⟩ := hfb
        have hlb : lookupPair (buildPairMap P nid []) b = j :=
          lookupPair_of_mem _ r3 b j hj
        have haj : a = j := by rw [hla, hlb] at heq; exact heq
        have hge : nid ≤ j := by
          rcases r2 (b, j) hj with h | h
          · cases h
          · simpa using h
        omega
      · push_neg at hfb
        have hlb : lookupPair (buildPairMap P nid []) b = b := by
          apply lookupPair_of_not_mem
          intro e he hc
          apply hfb e.2
          rw [← hc]
          exact he
        rw [hla, hlb] at heq
        exact absurd heq hab
  · intro hP
    obtain ⟨i, hia, hib⟩ := r6 a b hP
    rw [lookupPair_of_mem _ r3 a i hia, lookupPair_of_mem _ r3 b i hib]

lemma foldl_max_bound : ∀ (l : List Int) (init : Int),
    init ≤ l.foldl max init ∧ ∀ x ∈ l, x ≤ l.foldl max init := by
  intro l
  induction l with
  | nil =>
    intro init
    exact ⟨le_refl _, by intro x hx; cases hx⟩
  | cons y ys ih =>
    intro init
    rw [List.foldl_cons]
    obtain ⟨h1, h2⟩ := ih (max init y)
    refine ⟨le_trans (le_max_left _ _) h1, ?_⟩
    intro x hx
    rcases List.mem_cons.mp hx with rfl | hmem
    · exact le_trans (le_max_right _ _) h1
    · exact h2 x hmem

lemma maxParticle_ge (linked : List Row) :
    ∀ r ∈ linked, r.particle ≤ maxParticle linked := by
  intro r hr
  unfold maxParticle
  have hmem : r.particle ∈ linked.map (fun q => q.particle) :=
    List.mem_map_of_mem _ hr
  cases hmap : linked.map (fun q => q.particle) with
  | nil =>
    rw [hmap] at hmem
    cases hmem
  | cons p ps =>
    rw [hmap] at hmem
    show r.particle ≤ ps.foldl max p
    rcases List.mem_cons.mp hmem with heq | hmem2
    · rw [heq]
      exact (foldl_max_bound ps p).1
    · exact (foldl_max_bound ps p).2 r.particle hmem2

lemma buildPairMap_single (a b : Int) (hab : a ≠ b) (nid : Int) :
    buildPairMap [(a, b), (b, a)] nid [] = [(a, nid), (b, nid)] := by
  rw [buildPairMap]
  rw [if_neg (by simp)]
  simp only [List.nil_append]
  rw [buildPairMap]
  rw [if_pos (by simp)]
  rw [buildPairMap]

lemma compCond_iff_isolated (pts : List PairPt)
    (hn : (pts.map (fun p => p.particle)).Nodup) (a b : Int) (hab : a ≠ b) :
    ((componentOf pts a).toFinset = {a, b} ∧
      (neighborsOf pts a).length = 1 ∧ (neighborsOf pts b).length = 1) ↔
      isolatedPair pts a b := by
  constructor
  · rintro ⟨hfin, hda, hdb⟩
    obtain ⟨x, hx⟩ := List.length_eq_one.mp hda
    have hxa : x ≠ a := by
      intro hc
      exact not_self_neighbor pts a (by rw [hx, hc]; exact List.mem_singleton.mpr rfl)
    have hxcomp : x ∈ componentOf pts a :=
      neighbor_mem_componentOf pts a x (by rw [hx]; exact List.mem_singleton.mpr rfl)
    have hxab : x = a ∨ x = b := by
      have hxt : x ∈ (componentOf pts a).toFinset := List.mem_toFinset.mpr hxcomp
      rw [hfin] at hxt
      simpa using hxt
    have hxb : x = b := by
      rcases hxab with h | h
      · exact absurd h hxa
      · exact h
    rw [hxb] at hx
    refine ⟨hx, ?_⟩
    obtain ⟨y, hy⟩ := List.length_eq_one.mp hdb
    have hba : a ∈ neighborsOf pts b :=
      neighbor_symm pts hn b a (by rw [hx]; exact List.mem_singleton.mpr rfl)
    rw [hy] at hba ⊢
    rw [List.mem_singleton.mp hba]
  · intro hiso
    refine ⟨?_, by rw [hiso.1]; rfl, by rw [hiso.2]; rfl⟩
    ext z
    rw [List.mem_toFinset, componentOf_isolated_mem pts a b hiso z]
    simp

/-- Claim C4 (confirmed): in the last-frame adjacency graph of make_pairs
(edge iff centroid distance strictly under 1.5 times the diameter sum), a
pair of distinct tracks of the table is merged by the apply_pairing
remapping iff its connected component holds exactly the two of them and
both have degree exactly 1; three mutually close tracks are never merged;
and a lone isolated pair receives one shared fresh identity equal to
max existing + 1, strictly above every pre-existing identity. -/
theorem C4_pairing :
    (∀ (linked : List Row) (framesLen : Nat) (axes : List Char) (a b : Int),
      axes.head? = some 'T' → a ≠ b →
      a ∈ linked.map (fun r => r.particle) → b ∈ linked.map (fun r => r.particle) →
      (lookupPair (buildPairMap (makePairs linked framesLen axes)
          (maxParticle linked + 1) []) a =
        lookupPair (buildPairMap (makePairs linked framesLen axes)
          (maxParticle linked + 1) []) b ↔
        ((componentOf (lastFramePts linked ((framesLen : Int) - 1)) a).toFinset = {a, b} ∧
          (neighborsOf (lastFramePts linked ((framesLen : Int) - 1)) a).length = 1 ∧
          (neighborsOf (lastFramePts linked ((framesLen : Int) - 1)) b).length = 1))) ∧
    (∀ (linked : List Row) (framesLen : Nat) (axes : List Char)
        (px py pz : PairPt) (w : Int),
      axes.head? = some 'T' →
      px ∈ lastFramePts linked ((framesLen : Int) - 1) →
      py ∈ lastFramePts linked ((framesLen : Int) - 1) →
      pz ∈ lastFramePts linked ((framesLen : Int) - 1) →
      px.particle ≠ py.particle → px.particle ≠ pz.particle →
      py.particle ≠ pz.particle →
      closePts px py = true → closePts px pz = true → closePts py pz = true →
      (px.particle, w) ∉ makePairs linked framesLen axes ∧
      (py.particle, w) ∉ makePairs linked framesLen axes ∧
      (pz.particle, w) ∉ makePairs linked framesLen axes) ∧
    (∀ (linked : List Row) (framesLen : Nat) (axes : List Char) (a b : Int),
      axes.head? = some 'T' →
      makePairs linked framesLen axes = [(a, b), (b, a)] →
      lookupPair (buildPairMap (makePairs linked framesLen axes)
          (maxParticle linked + 1) []) a = maxParticle linked + 1 ∧
      lookupPair (buildPairMap (makePairs linked framesLen axes)
          (maxParticle linked + 1) []) b = maxParticle linked + 1 ∧
      (∀ r ∈ linked, r.particle < maxParticle linked + 1) ∧
      applyPairing linked (makePairs linked framesLen axes) =
        linked.map (fun r =>
          { r with particle :=
              lookupPair (buildPairMap (makePairs linked framesLen axes)
                (maxParticle linked + 1) []) r.particle })) := by
  refine ⟨?_, ?_, ?_⟩
  · intro linked framesLen axes a b hT hab ha hb
    have hgood := makePairs_good linked framesLen axes
    have haMax : a < maxParticle linked + 1 := by
      rw [List.mem_map] at ha
      obtain ⟨r, hr, hra⟩ := ha
      have := maxParticle_ge linked r hr
      omega
    have hbMax : b < maxParticle linked + 1 := by
      rw [List.mem_map] at hb
      obtain ⟨r, hr, hrb⟩ := hb
      have := maxParticle_ge linked r hr
      omega
    rw [mergedIds_iff (makePairs linked framesLen axes) hgood
      (maxParticle linked + 1) a b hab haMax hbMax]
    rw [makePairs_mem_iff linked framesLen axes hT]
    exact (compCond_iff_isolated (lastFramePts linked ((framesLen : Int) - 1))
      (lastFramePts_nodup linked ((framesLen : Int) - 1)) a b hab).symm
  · intro linked framesLen axes px py pz w hT hpx hpy hpz hxy hxz hyz hcxy hcxz hcyz
    have hn := lastFramePts_nodup linked ((framesLen : Int) - 1)
    have key : ∀ (p q s : PairPt),
        p ∈ lastFramePts linked ((framesLen : Int) - 1) →
        q ∈ lastFramePts linked ((framesLen : Int) - 1) →
        s ∈ lastFramePts linked ((framesLen : Int) - 1) →
        p.particle ≠ q.particle → p.particle ≠ s.particle → q.particle ≠ s.particle →
        closePts p q = true → closePts p s = true →
        (p.particle, w) ∉ makePairs linked framesLen axes := by
      intro p q s hp hq hs hpq hps hqs hcq hcs hmem
      rw [makePairs_mem_iff linked framesLen axes hT] at hmem
      have hnb := hmem.1
      rw [neighborsOf_of_mem _ hn p hp] at hnb
      have hqmem : q.particle ∈ neighborsPt (lastFramePts linked ((framesLen : Int) - 1)) p :=
        (mem_neighborsPt _ p q.particle).mpr ⟨q, hq, rfl, fun hc => hpq hc.symm, hcq⟩
      have hsmem : s.particle ∈ neighborsPt (lastFramePts linked ((framesLen : Int) - 1)) p :=
        (mem_neighborsPt _ p s.particle).mpr ⟨s, hs, rfl, fun hc => hps hc.symm, hcs⟩
      rw [hnb] at hqmem hsmem
      exact hqs ((List.mem_singleton.mp hqmem).trans (List.mem_singleton.mp hsmem).symm)
    refine ⟨?_, ?_, ?_⟩
    · exact key px py pz hpx hpy hpz hxy hxz hyz hcxy hcxz
    · exact key py px pz hpy hpx hpz (Ne.symm hxy) hyz hxz
        (by rw [closePts_comm]; exact hcxy) hcyz
    · exact key pz px py hpz hpx hpy (Ne.symm hxz) (Ne.symm hyz) hxy
        (by rw [closePts_comm]; exact hcxz) (by rw [closePts_comm]; exact hcyz)
  · intro linked framesLen axes a b hT hmk
    have hab : a ≠ b := by
      have hm : (a, b) ∈ makePairs linked framesLen axes := by
        rw [hmk]
        exact List.mem_cons_self _ _
      rw [makePairs_mem_iff linked framesLen axes hT] at hm
      exact isolatedPair_ne _ a b hm
    rw [hmk, buildPairMap_single a b hab]
    refine ⟨?_, ?_, ?_, ?_⟩
    · unfold lookupPair
      simp [List.find?_cons]
    · unfold lookupPair
      have hba : ((a : Int) == b) = false := by simpa using hab
      simp [List.find?_cons, hba]
    · intro r hr
      have := maxParticle_ge linked r hr
      omega
    · unfold applyPairing
      rw [if_neg (by simp)]
      rw [buildPairMap_single a b hab]

/-- Witness for C4: three tracks at the last frame of a one-frame table,
mutually within the distance threshold; no pair involving them is merged,
in particular tracks 1 and 2 are not paired. -/
theorem C4_witness :
    ((1 : Int), (2 : Int)) ∉
      makePairs [⟨0, 0, 0, 0, 1, 10, 1⟩, ⟨0, 1, 0, 0, 2, 10, 2⟩, ⟨0, 0, 1, 0, 3, 10, 3⟩]
        1 ['T', 'Y', 'X'] := by
  have hpts : lastFramePts
      [⟨0, 0, 0, 0, 1, 10, 1⟩, ⟨0, 1, 0, 0, 2, 10, 2⟩, ⟨0, 0, 1, 0, 3, 10, 3⟩]
      (((1 : Nat) : Int) - 1) =
      [⟨1, 0, 0, 10⟩, ⟨2, 1, 0, 10⟩, ⟨3, 0, 1, 10⟩] := by
    decide
  have h := (C4_pairing.2.1
    [⟨0, 0, 0, 0, 1, 10, 1⟩, ⟨0, 1, 0, 0, 2, 10, 2⟩, ⟨0, 0, 1, 0, 3, 10, 3⟩]
    1 ['T', 'Y', 'X'] ⟨1, 0, 0, 10⟩ ⟨2, 1, 0, 10⟩ ⟨3, 0, 1, 10⟩ 2
    rfl
    (by rw [hpts]; exact List.mem_cons_self _ _)
    (by rw [hpts]; exact List.mem_cons_of_mem _ (List.mem_cons_self _ _))
    (by rw [hpts]; exact List.mem_cons_of_mem _ (List.mem_cons_of_mem _ (List.mem_cons_self _ _)))
    (by decide) (by decide) (by decide)
    (by norm_num [closePts]) (by norm_num [closePts]) (by norm_num [closePts])).1
  exact h

end MembraneIntensity
